import Mathlib

/-!
Verification of the usage-counter aggregation subsystem (`Analytics` in
`docsifer/analytics.py`) against its natural-language specification.

The Python class keeps two in-memory counter tables (`current_totals`,
`new_increments`), both of shape metric -> period -> label -> int, records
events into both, periodically flushes `new_increments` to a remote Redis
store via HINCRBY, bootstraps `current_totals` from Redis at startup, and
rebuilds the Redis client with bounded exponential backoff after a failed
flush.

Python dicts are modelled as insertion-ordered association lists; `defaultdict`
lookups default to the zero value.  Remote calls are modelled by explicit
failure oracles (the index of the first failing call, if any).
-/

/-! ## Python dict model: insertion-ordered association lists -/

/-- An inner dict `label -> int` (a Redis hash / `defaultdict(int)`). -/
abbrev Fields := List (String × Int)

/-- An outer dict `period -> Fields` (a `defaultdict(lambda: defaultdict(int))`). -/
abbrev Table := List (String × Fields)

/-- Lookup in an inner dict, defaulting to 0 (the `defaultdict(int)` default). -/
def fget (f : Fields) (k : String) : Int :=
  match f with
  | [] => 0
  | (k', v) :: rest => if k' = k then v else fget rest k

/-- `d[k] = v` on a Python dict: update in place if the key exists (keeping its
position), otherwise append at the end (insertion order). -/
def fset (f : Fields) (k : String) (v : Int) : Fields :=
  match f with
  | [] => [(k, v)]
  | (k', v') :: rest => if k' = k then (k', v) :: rest else (k', v') :: fset rest k v

/-- The keys of an inner dict, in insertion order. -/
def fkeys (f : Fields) : List String := f.map Prod.fst

/-- Lookup in an outer dict, defaulting to the empty inner dict. -/
def tget (t : Table) (p : String) : Fields :=
  match t with
  | [] => []
  | (p', f) :: rest => if p' = p then f else tget rest p

/-- `d[p] = f` on the outer dict. -/
def tset (t : Table) (p : String) (f : Fields) : Table :=
  match t with
  | [] => [(p, f)]
  | (p', f') :: rest => if p' = p then (p', f) :: rest else (p', f') :: tset rest p f

/-- The keys of an outer dict, in insertion order. -/
def tkeys (t : Table) : List String := t.map Prod.fst

/-- Cell lookup `t[p][l]`, defaulting to 0. -/
def tgetc (t : Table) (p l : String) : Int := fget (tget t p) l

/-- `t[p][l] += v` on a nested defaultdict. -/
def tincr (t : Table) (p l : String) (v : Int) : Table :=
  tset t p (fset (tget t p) l (fget (tget t p) l + v))

/-- Well-formedness of an inner dict: no duplicate keys (true of every Python dict). -/
def FieldsWF (f : Fields) : Prop := (f.map Prod.fst).Nodup

/-- Well-formedness of an outer dict: no duplicate keys, all inner dicts well-formed. -/
def TableWF (t : Table) : Prop :=
  (t.map Prod.fst).Nodup ∧ ∀ e ∈ t, FieldsWF e.2

/-! ### Basic lemmas about the dict model -/

theorem fget_fset (f : Fields) (k k' : String) (v : Int) :
    fget (fset f k v) k' = if k = k' then v else fget f k' := by
  induction f with
  | nil => simp [fget, fset]
  | cons e rest ih =>
    obtain ⟨k0, v0⟩ := e
    by_cases h0 : k0 = k
    · subst h0
      by_cases h1 : k0 = k'
      · subst h1; simp [fset, fget]
      · simp [fset, fget, h1]
    · simp only [fset, if_neg h0, fget]
      by_cases h1 : k0 = k'
      · subst h1
        have hkk : ¬ k = k0 := fun h => h0 h.symm
        simp [hkk]
      · simp [h1, ih]

theorem fkeys_fset (f : Fields) (k : String) (v : Int) :
    fkeys (fset f k v) = if k ∈ fkeys f then fkeys f else fkeys f ++ [k] := by
  induction f with
  | nil => simp [fkeys, fset]
  | cons e rest ih =>
    obtain ⟨k0, v0⟩ := e
    by_cases h0 : k0 = k
    · subst h0; simp [fset, fkeys]
    · have hne : ¬ k = k0 := fun h => h0 h.symm
      simp only [fset, if_neg h0, fkeys, List.map_cons, List.mem_cons]
      simp only [fkeys] at ih
      rw [ih]
      by_cases hm : k ∈ rest.map Prod.fst
      · simp [hm, hne]
      · simp [hm, hne]

theorem mem_fkeys_fset (f : Fields) (k k' : String) (v : Int) :
    k' ∈ fkeys (fset f k v) ↔ k' ∈ fkeys f ∨ k' = k := by
  rw [fkeys_fset]
  split
  · constructor
    · exact fun h => Or.inl h
    · rintro (h | rfl)
      · exact h
      · assumption
  · simp

theorem fieldsWF_fset {f : Fields} (hf : FieldsWF f) (k : String) (v : Int) :
    FieldsWF (fset f k v) := by
  unfold FieldsWF at *
  have h := fkeys_fset f k v
  unfold fkeys at h
  rw [h]
  split
  · exact hf
  · rename_i hnm
    simpa using List.Nodup.append hf (by simp) (by simpa using hnm)

theorem fget_eq_zero_of_not_mem {f : Fields} {k : String} (h : k ∉ fkeys f) :
    fget f k = 0 := by
  induction f with
  | nil => rfl
  | cons e rest ih =>
    obtain ⟨k0, v0⟩ := e
    simp only [fkeys, List.map_cons, List.mem_cons] at h
    push_neg at h
    have hne : k0 ≠ k := fun hh => h.1 hh.symm
    simp only [fget, if_neg hne]
    exact ih (by simpa [fkeys] using h.2)

theorem tget_tset (t : Table) (p p' : String) (f : Fields) :
    tget (tset t p f) p' = if p = p' then f else tget t p' := by
  induction t with
  | nil => simp [tget, tset]
  | cons e rest ih =>
    obtain ⟨p0, f0⟩ := e
    by_cases h0 : p0 = p
    · subst h0
      by_cases h1 : p0 = p'
      · subst h1; simp [tset, tget]
      · simp [tset, tget, h1]
    · simp only [tset, if_neg h0, tget]
      by_cases h1 : p0 = p'
      · subst h1
        have hpp : ¬ p = p0 := fun h => h0 h.symm
        simp [hpp]
      · simp [h1, ih]

theorem tkeys_tset (t : Table) (p : String) (f : Fields) :
    tkeys (tset t p f) = if p ∈ tkeys t then tkeys t else tkeys t ++ [p] := by
  induction t with
  | nil => simp [tkeys, tset]
  | cons e rest ih =>
    obtain ⟨p0, f0⟩ := e
    by_cases h0 : p0 = p
    · subst h0; simp [tset, tkeys]
    · have hne : ¬ p = p0 := fun h => h0 h.symm
      simp only [tset, if_neg h0, tkeys, List.map_cons, List.mem_cons]
      simp only [tkeys] at ih
      rw [ih]
      by_cases hm : p ∈ rest.map Prod.fst
      · simp [hm, hne]
      · simp [hm, hne]

theorem mem_tkeys_tset (t : Table) (p p' : String) (f : Fields) :
    p' ∈ tkeys (tset t p f) ↔ p' ∈ tkeys t ∨ p' = p := by
  rw [tkeys_tset]
  split
  · constructor
    · exact fun h => Or.inl h
    · rintro (h | rfl)
      · exact h
      · assumption
  · simp

theorem mem_of_mem_tset {t : Table} {p : String} {f : Fields} {e : String × Fields}
    (h : e ∈ tset t p f) : e ∈ t ∨ e = (p, f) := by
  induction t with
  | nil =>
    simp only [tset, List.mem_singleton] at h
    exact Or.inr h
  | cons e0 rest ih =>
    obtain ⟨p0, f0⟩ := e0
    by_cases h0 : p0 = p
    · subst h0
      simp only [tset, if_true, eq_self_iff_true, List.mem_cons] at h
      rcases h with h1 | h1
      · exact Or.inr h1
      · exact Or.inl (List.mem_cons_of_mem _ h1)
    · simp only [tset, if_neg h0, List.mem_cons] at h
      rcases h with h1 | h1
      · exact Or.inl (h1 ▸ List.mem_cons_self _ _)
      · rcases ih h1 with h2 | h2
        · exact Or.inl (List.mem_cons_of_mem _ h2)
        · exact Or.inr h2

theorem tableWF_tset {t : Table} (ht : TableWF t) {f : Fields} (hf : FieldsWF f)
    (p : String) : TableWF (tset t p f) := by
  obtain ⟨hnd, hin⟩ := ht
  constructor
  · have h := tkeys_tset t p f
    unfold tkeys at h
    rw [h]
    split
    · exact hnd
    · rename_i hnm
      simpa using List.Nodup.append hnd (by simp) (by simpa [tkeys] using hnm)
  · intro e he
    rcases mem_of_mem_tset he with h | h
    · exact hin e h
    · rw [h]; exact hf

theorem tget_wf {t : Table} (ht : TableWF t) (p : String) : FieldsWF (tget t p) := by
  induction t with
  | nil => exact List.nodup_nil
  | cons e rest ih =>
    obtain ⟨p0, f0⟩ := e
    simp only [tget]
    split
    · exact ht.2 (p0, f0) (List.mem_cons_self _ _)
    · exact ih ⟨(List.nodup_cons.mp ht.1).2, fun e he => ht.2 e (List.mem_cons_of_mem _ he)⟩

theorem tget_eq_nil_of_not_mem {t : Table} {p : String} (h : p ∉ tkeys t) :
    tget t p = [] := by
  induction t with
  | nil => rfl
  | cons e rest ih =>
    obtain ⟨p0, f0⟩ := e
    simp only [tkeys, List.map_cons, List.mem_cons] at h
    push_neg at h
    have hne : p0 ≠ p := fun hh => h.1 hh.symm
    simp only [tget, if_neg hne]
    exact ih (by simpa [tkeys] using h.2)

theorem tgetc_eq_zero_of_not_mem {t : Table} {p : String} (h : p ∉ tkeys t) (l : String) :
    tgetc t p l = 0 := by
  simp [tgetc, tget_eq_nil_of_not_mem h, fget]

theorem tgetc_tincr (t : Table) (p l p' l' : String) (v : Int) :
    tgetc (tincr t p l v) p' l' = tgetc t p' l' + if p = p' ∧ l = l' then v else 0 := by
  unfold tincr tgetc
  rw [tget_tset]
  by_cases hp : p = p'
  · subst hp
    rw [if_pos rfl, fget_fset]
    by_cases hl : l = l'
    · subst hl; simp
    · simp [hl]
  · simp [hp]

theorem tableWF_tincr {t : Table} (ht : TableWF t) (p l : String) (v : Int) :
    TableWF (tincr t p l v) :=
  tableWF_tset ht (fieldsWF_fset (tget_wf ht p) l _) p

theorem tkeys_tincr_subset (t : Table) (p l : String) (v : Int) :
    ∀ q ∈ tkeys (tincr t p l v), q ∈ tkeys t ∨ q = p := by
  intro q hq
  exact (mem_tkeys_tset t p q _).mp hq

/-! ## Counter tables and analytics state -/

/-- The two metrics tracked by the aggregator. -/
inductive Metric
  | access
  | tokens
deriving DecidableEq, Repr

/-- One metric -> period -> label -> count structure (e.g. `current_totals`). -/
structure CounterTables where
  access : Table
  tokens : Table
deriving DecidableEq, Repr

/-- Select the table of one metric. -/
def CounterTables.tab (c : CounterTables) : Metric → Table
  | .access => c.access
  | .tokens => c.tokens

/-- A freshly constructed pair of empty defaultdicts. -/
def emptyTables : CounterTables := ⟨[], []⟩

/-- Well-formedness of both tables (no duplicate dict keys). -/
def TablesWF (c : CounterTables) : Prop := TableWF c.access ∧ TableWF c.tokens

/-- The in-memory state of the `Analytics` instance: absolute totals and
unflushed increments. -/
structure AnalyticsState where
  current_totals : CounterTables
  new_increments : CounterTables
deriving DecidableEq, Repr

/-- The state right after `Analytics.__init__` builds the two dictionaries. -/
def initialState : AnalyticsState := ⟨emptyTables, emptyTables⟩

/-! ## Decimal rendering and period keys (`Analytics._get_period_keys`) -/

/-- The character of a decimal digit. -/
def digitChar : Nat → Char
  | 0 => '0'
  | 1 => '1'
  | 2 => '2'
  | 3 => '3'
  | 4 => '4'
  | 5 => '5'
  | 6 => '6'
  | 7 => '7'
  | 8 => '8'
  | _ => '9'

/-- Least-significant-first decimal digits of `n`, with explicit fuel so that
the kernel can evaluate it (`fuel ≥ n` suffices). -/
def natDigitsAux : Nat → Nat → List Nat
  | 0, _ => []
  | fuel + 1, n => if n = 0 then [] else n % 10 :: natDigitsAux fuel (n / 10)

/-- Python `str(n)` for a non-negative integer: decimal, no padding. -/
def natDecimal (n : Nat) : String :=
  if n = 0 then "0" else ⟨((natDigitsAux n n).map digitChar).reverse⟩

/-- Python `"%02d" % n` / `strftime` two-digit zero padding. -/
def pad2 (n : Nat) : String :=
  if n < 10 then "0" ++ natDecimal n else natDecimal n

/-- A UTC wall-clock instant (`datetime.utcnow()`), at second granularity. -/
structure UTCTime where
  year : Nat
  month : Nat
  day : Nat
  hour : Nat
  minute : Nat
  second : Nat
deriving DecidableEq, Repr

/-- Gregorian leap-year predicate. -/
def isLeap (y : Nat) : Bool := (y % 4 == 0 && y % 100 != 0) || y % 400 == 0

/-- Month lengths for a (non-)leap year. -/
def monthLengths (leap : Bool) : List Nat :=
  [31, if leap then 29 else 28, 31, 30, 31, 30, 31, 31, 30, 31, 30, 31]

/-- Days in year `y` strictly before month `m` (1-based month). -/
def daysBeforeMonth (y m : Nat) : Nat := ((monthLengths (isLeap y)).take (m - 1)).sum

/-- Zero-based day of year (`tm_yday`). -/
def dayOfYear0 (t : UTCTime) : Nat := daysBeforeMonth t.year t.month + (t.day - 1)

/-- Days strictly before January 1 of year `y` in the proleptic Gregorian
calendar (so that 0001-01-01 has ordinal 1, as in Python's `date.toordinal`). -/
def daysBeforeYear (y : Nat) : Nat :=
  365 * (y - 1) + ((y - 1) / 4 - (y - 1) / 100) + (y - 1) / 400

/-- Python `date.toordinal`. -/
def toOrdinal (t : UTCTime) : Nat := daysBeforeYear t.year + dayOfYear0 t + 1

/-- Day of week with Sunday = 0 (`tm_wday` as used by `strftime("%U")`). -/
def wdaySun (t : UTCTime) : Nat := toOrdinal t % 7

/-- `strftime("%U")`: week of year, Sunday first; days before the first Sunday
are week 0. -/
def weekOfYearU (t : UTCTime) : Nat := (dayOfYear0 t + 7 - wdaySun t) / 7

/-- `now.strftime("%Y-%m-%d")`. -/
def dayKey (t : UTCTime) : String :=
  natDecimal t.year ++ "-" ++ pad2 t.month ++ "-" ++ pad2 t.day

/-- `f"{now.year}-W{now.strftime('%U')}"`. -/
def weekKey (y w : Nat) : String := natDecimal y ++ "-W" ++ pad2 w

/-- `now.strftime("%Y-%m")`. -/
def monthKey (t : UTCTime) : String := natDecimal t.year ++ "-" ++ pad2 t.month

/-- `now.strftime("%Y")`. -/
def yearKey (t : UTCTime) : String := natDecimal t.year

/-- `Analytics._get_period_keys`: day, week, month, year and the sentinel
"total", derived from the current UTC time. -/
def Analytics.getPeriodKeys (t : UTCTime) : List String :=
  [dayKey t, weekKey t.year (weekOfYearU t), monthKey t, yearKey t, "total"]

/-! ## `Analytics.access` -/

/-- One iteration of the period loop in `Analytics.access`: for one period key,
bump new and absolute counters of both metrics for the label "docsifer". -/
def accessStep (tk : Int) (s : AnalyticsState) (period : String) : AnalyticsState :=
  { new_increments := ⟨tincr s.new_increments.access period "docsifer" 1,
                       tincr s.new_increments.tokens period "docsifer" tk⟩,
    current_totals := ⟨tincr s.current_totals.access period "docsifer" 1,
                       tincr s.current_totals.tokens period "docsifer" tk⟩ }

/-- `Analytics.access(tokens)` recorded at UTC time `now`. -/
def Analytics.access (s : AnalyticsState) (now : UTCTime) (tk : Int) : AnalyticsState :=
  (Analytics.getPeriodKeys now).foldl (accessStep tk) s

/-! ## `Analytics.stats` -/

/-- `dict(models)`: a fresh dict with the same entries in the same order. -/
def dictCopy (f : Fields) : Fields := f.foldl (fun acc kv => fset acc kv.1 kv.2) []

/-- The dict comprehension in `Analytics.stats`: a fresh outer dict whose inner
dicts are fresh copies. -/
def copyTable (t : Table) : Table := t.map (fun e => (e.1, dictCopy e.2))

/-- `Analytics.stats`: returns the snapshot built from `current_totals`, and
leaves the state as it was. -/
def Analytics.stats (s : AnalyticsState) : CounterTables × AnalyticsState :=
  (⟨copyTable s.current_totals.access, copyTable s.current_totals.tokens⟩, s)

/-! ## `Analytics._sync_to_redis` (flush) -/

/-- The HINCRBY calls issued for one metric's `new_increments` table, in
iteration order, skipping zero counts (`if count_val != 0`). -/
def tableWrites (t : Table) : List (String × String × Int) :=
  t.flatMap (fun e => (e.2.filter (fun kv => kv.2 != 0)).map (fun kv => (e.1, kv.1, kv.2)))

/-- All HINCRBY calls of one flush: the "access" loop, then the "tokens" loop. -/
def flushWrites (inc : CounterTables) : List (Metric × String × String × Int) :=
  (tableWrites inc.access).map (fun w => (Metric.access, w)) ++
    (tableWrites inc.tokens).map (fun w => (Metric.tokens, w))

/-- Effect of one HINCRBY call on the remote store (atomic increment-by). -/
def applyWrite (r : CounterTables) (w : Metric × String × String × Int) : CounterTables :=
  match w with
  | (Metric.access, p, l, v) => ⟨tincr r.access p l v, r.tokens⟩
  | (Metric.tokens, p, l, v) => ⟨r.access, tincr r.tokens p l v⟩

/-- Result of one `_sync_to_redis` call. -/
structure SyncResult where
  state : AnalyticsState
  remote : CounterTables
  ok : Bool
deriving DecidableEq, Repr

/-- `Analytics._sync_to_redis`: issue the HINCRBY calls in order; if all
succeed, reset `new_increments` to fresh empty defaultdicts; if the call at
index `k` raises, stop there, leave the local state untouched, and re-raise
(`ok = false`).  `failAt = some k` with `k` past the last call means no call
fails. -/
def Analytics.syncToRedis (s : AnalyticsState) (remote : CounterTables)
    (failAt : Option Nat) : SyncResult :=
  let ws := flushWrites s.new_increments
  match failAt with
  | none => ⟨{ s with new_increments := emptyTables }, ws.foldl applyWrite remote, true⟩
  | some k =>
    if k < ws.length then ⟨s, (ws.take k).foldl applyWrite remote, false⟩
    else ⟨{ s with new_increments := emptyTables }, ws.foldl applyWrite remote, true⟩

/-- Result of one iteration of the periodic sync loop. -/
structure CycleResult where
  state : AnalyticsState
  remote : CounterTables
  reconnectInvoked : Bool
deriving DecidableEq, Repr

/-- One iteration of `_start_sync_task`: run `_sync_to_redis`; when it raises,
delegate to `_handle_redis_reconnection`. -/
def Analytics.syncCycle (s : AnalyticsState) (remote : CounterTables)
    (failAt : Option Nat) : CycleResult :=
  let r := Analytics.syncToRedis s remote failAt
  ⟨r.state, r.remote, !r.ok⟩

/-! ## `Analytics._sync_from_redis` (bootstrap) and `_initialize` -/

/-- Where the bootstrap load raises, if anywhere: after fully reading `k`
periods of the given phase (`k = 0` models the initial SCAN call failing). -/
inductive BootFail
  | accessAt (k : Nat)
  | tokensAt (k : Nat)
deriving DecidableEq, Repr

/-- Loading scanned hashes into a fresh defaultdict:
`current_totals[metric][period][name] = int(count)` for every period in scan
order and every field of its hash. -/
def loadTable (entries : Table) : Table :=
  entries.foldl
    (fun acc e => e.2.foldl (fun a kv => tset a e.1 (fset (tget a e.1) kv.1 kv.2)) acc) []

/-- `Analytics._sync_from_redis`: reset both structures, then load the
"access" keys and afterwards the "tokens" keys from the remote store.  A
failure aborts the load where it happens and propagates (`false`); everything
already assigned stays. -/
def Analytics.syncFromRedis (remote : CounterTables) (failAt : Option BootFail) :
    AnalyticsState × Bool :=
  match failAt with
  | none =>
    ({ current_totals := ⟨loadTable remote.access, loadTable remote.tokens⟩,
       new_increments := emptyTables }, true)
  | some (.accessAt k) =>
    if k < remote.access.length then
      ({ current_totals := ⟨loadTable (remote.access.take k), []⟩,
         new_increments := emptyTables }, false)
    else
      ({ current_totals := ⟨loadTable remote.access, loadTable remote.tokens⟩,
         new_increments := emptyTables }, true)
  | some (.tokensAt k) =>
    if k < remote.tokens.length then
      ({ current_totals := ⟨loadTable remote.access, loadTable (remote.tokens.take k)⟩,
         new_increments := emptyTables }, false)
    else
      ({ current_totals := ⟨loadTable remote.access, loadTable remote.tokens⟩,
         new_increments := emptyTables }, true)

/-- `Analytics._initialize`: attempt the bootstrap, logging (not propagating)
any failure, then start the periodic sync task unconditionally.  Returns the
resulting state, whether the bootstrap succeeded, and whether the periodic
sync task was started. -/
def Analytics.initOnce (remote : CounterTables) (failAt : Option BootFail) :
    AnalyticsState × Bool × Bool :=
  let r := Analytics.syncFromRedis remote failAt
  (r.1, r.2, true)

/-! ## `Analytics._handle_redis_reconnection` -/

/-- Observable outcome of the reconnection routine: attempts made, the sleeps
performed between them, whether a reconnection succeeded, and whether the
critical "max attempts reached" log was emitted. -/
structure ReconnResult where
  attempts : Nat
  sleeps : List Nat
  success : Bool
  critical : Bool
deriving DecidableEq, Repr

/-- The `while retry_count < self.max_retries` loop, with the outcome of each
close-and-recreate attempt supplied by `outcomes` (one entry per remaining
retry) and the current backoff `delay`. -/
def reconnLoop (outcomes : List Bool) (delay : Nat) : ReconnResult :=
  match outcomes with
  | [] => ⟨0, [], false, true⟩
  | ok :: rest =>
    if ok then ⟨1, [], true, false⟩
    else
      let r := reconnLoop rest (delay * 2)
      ⟨r.attempts + 1, delay :: r.sleeps, r.success, r.critical⟩

/-- `Analytics._handle_redis_reconnection` with `max_retries = outcomes.length`:
`retry_count = 0`, `delay = 1`, then the loop. -/
def Analytics.handleRedisReconnection (outcomes : List Bool) : ReconnResult :=
  reconnLoop outcomes 1

/-! ### Sanity checks against concrete Python outputs -/

example : natDecimal 2025 = "2025" := by decide
example : pad2 1 = "01" := by decide
example : toOrdinal ⟨2025, 1, 14, 0, 0, 0⟩ = 739265 := by decide
example : toOrdinal ⟨1970, 1, 1, 0, 0, 0⟩ = 719163 := by decide
example : dayKey ⟨2025, 1, 14, 0, 0, 0⟩ = "2025-01-14" := by decide
example : weekKey 2025 (weekOfYearU ⟨2025, 1, 14, 0, 0, 0⟩) = "2025-W02" := by decide
example : weekKey 2023 (weekOfYearU ⟨2023, 12, 31, 0, 0, 0⟩) = "2023-W53" := by decide
example : weekKey 2024 (weekOfYearU ⟨2024, 1, 1, 0, 0, 0⟩) = "2024-W00" := by decide
example : weekKey 2024 (weekOfYearU ⟨2024, 12, 31, 0, 0, 0⟩) = "2024-W52" := by decide
example : weekKey 2025 (weekOfYearU ⟨2025, 10, 12, 0, 0, 0⟩) = "2025-W41" := by decide
example : monthKey ⟨2000, 3, 1, 0, 0, 0⟩ = "2000-03" := by decide
example : Analytics.getPeriodKeys ⟨2025, 1, 14, 0, 0, 0⟩ =
    ["2025-01-14", "2025-W02", "2025-01", "2025", "total"] := by decide

/-! ## Lemmas about decimal rendering and period-key shapes -/

/-- The ten decimal digit characters. -/
def digitList : List Char := ['0', '1', '2', '3', '4', '5', '6', '7', '8', '9']

/-- Value of a least-significant-first decimal digit list. -/
def ofDigits10 : List Nat → Nat
  | [] => 0
  | d :: rest => d + 10 * ofDigits10 rest

theorem ofDigits10_natDigitsAux : ∀ fuel n : Nat, n ≤ fuel →
    ofDigits10 (natDigitsAux fuel n) = n := by
  intro fuel
  induction fuel with
  | zero =>
    intro n hn
    have : n = 0 := Nat.le_zero.mp hn
    subst this; rfl
  | succ f ih =>
    intro n hn
    by_cases h0 : n = 0
    · subst h0; simp [natDigitsAux, ofDigits10]
    · simp only [natDigitsAux, if_neg h0, ofDigits10]
      have hdiv : n / 10 ≤ f := by
        have h1 : n / 10 < n := Nat.div_lt_self (Nat.pos_of_ne_zero h0) (by norm_num)
        omega
      rw [ih _ hdiv]
      omega

theorem natDigitsAux_lt10 : ∀ fuel n : Nat, ∀ d ∈ natDigitsAux fuel n, d < 10 := by
  intro fuel
  induction fuel with
  | zero => intro n d hd; simp [natDigitsAux] at hd
  | succ f ih =>
    intro n d hd
    by_cases h0 : n = 0
    · subst h0; simp [natDigitsAux] at hd
    · simp only [natDigitsAux, if_neg h0, List.mem_cons] at hd
      rcases hd with h | h
      · subst h; exact Nat.mod_lt _ (by norm_num)
      · exact ih _ _ h

theorem digitChar_mem (d : Nat) : digitChar d ∈ digitList := by
  unfold digitChar
  split <;> decide

theorem digitChar_inj : ∀ a < 10, ∀ b < 10, digitChar a = digitChar b → a = b := by
  decide

theorem natDecimal_data (n : Nat) : (natDecimal n).data =
    if n = 0 then ['0'] else ((natDigitsAux n n).map digitChar).reverse := by
  unfold natDecimal
  split <;> rfl

theorem mem_natDecimal_data {c : Char} {n : Nat} (h : c ∈ (natDecimal n).data) :
    c ∈ digitList := by
  rw [natDecimal_data] at h
  split at h
  · simp only [List.mem_singleton] at h
    subst h; decide
  · simp only [List.mem_reverse, List.mem_map] at h
    obtain ⟨d, _, hd⟩ := h
    exact hd ▸ digitChar_mem d

theorem map_digitChar_inj : ∀ l1 l2 : List Nat, (∀ x ∈ l1, x < 10) → (∀ x ∈ l2, x < 10) →
    l1.map digitChar = l2.map digitChar → l1 = l2 := by
  intro l1
  induction l1 with
  | nil =>
    intro l2 _ _ h
    cases l2 with
    | nil => rfl
    | cons b l2' => simp at h
  | cons a l1' ih =>
    intro l2 h1 h2 h
    cases l2 with
    | nil => simp at h
    | cons b l2' =>
      simp only [List.map_cons, List.cons.injEq] at h
      have hab : a = b := digitChar_inj a (h1 a (by simp)) b (h2 b (by simp)) h.1
      have hrest := ih l2' (fun x hx => h1 x (by simp [hx])) (fun x hx => h2 x (by simp [hx])) h.2
      rw [hab, hrest]

theorem string_eq_of_data_eq {a b : String} (h : a.data = b.data) : a = b := by
  cases a; cases b; exact congrArg String.mk h

theorem natDecimal_inj {m n : Nat} (h : natDecimal m = natDecimal n) : m = n := by
  have hd := congrArg String.data h
  rw [natDecimal_data, natDecimal_data] at hd
  by_cases hm : m = 0 <;> by_cases hn : n = 0
  · omega
  · exfalso
    rw [if_pos hm, if_neg hn] at hd
    have hrev := congrArg List.reverse hd
    simp only [List.reverse_reverse, List.reverse_singleton] at hrev
    have hlen : ((natDigitsAux n n).map digitChar).length = 1 := by rw [← hrev]; rfl
    rw [List.length_map] at hlen
    obtain ⟨d, hdz⟩ := List.length_eq_one.mp hlen
    rw [hdz] at hrev
    simp only [List.map_cons, List.map_nil, List.cons.injEq] at hrev
    have hd10 : d < 10 := natDigitsAux_lt10 n n d (by simp [hdz])
    have : d = 0 := digitChar_inj d hd10 0 (by norm_num) (by rw [← hrev.1]; rfl)
    have hn' := ofDigits10_natDigitsAux n n le_rfl
    rw [hdz, this] at hn'
    simp [ofDigits10] at hn'
    exact hn hn'.symm
  · exfalso
    rw [if_neg hm, if_pos hn] at hd
    have hrev := congrArg List.reverse hd
    simp only [List.reverse_reverse, List.reverse_singleton] at hrev
    have hlen : ((natDigitsAux m m).map digitChar).length = 1 := by rw [hrev]; rfl
    rw [List.length_map] at hlen
    obtain ⟨d, hdz⟩ := List.length_eq_one.mp hlen
    rw [hdz] at hrev
    simp only [List.map_cons, List.map_nil, List.cons.injEq] at hrev
    have hd10 : d < 10 := natDigitsAux_lt10 m m d (by simp [hdz])
    have : d = 0 := digitChar_inj d hd10 0 (by norm_num) (by rw [hrev.1]; rfl)
    have hm' := ofDigits10_natDigitsAux m m le_rfl
    rw [hdz, this] at hm'
    simp [ofDigits10] at hm'
    exact hm hm'.symm
  · rw [if_neg hm, if_neg hn] at hd
    have hrev := congrArg List.reverse hd
    simp only [List.reverse_reverse] at hrev
    have := map_digitChar_inj (natDigitsAux m m) (natDigitsAux n n)
      (natDigitsAux_lt10 m m) (natDigitsAux_lt10 n n) hrev
    have h1 := ofDigits10_natDigitsAux m m le_rfl
    have h2 := ofDigits10_natDigitsAux n n le_rfl
    rw [← h1, ← h2, this]

/-- Occurrences of a character in a string. -/
def charCount (c : Char) (s : String) : Nat := s.data.count c

theorem string_data_append (a b : String) : (a ++ b).data = a.data ++ b.data := by
  cases a; cases b; rfl

theorem charCount_append (c : Char) (a b : String) :
    charCount c (a ++ b) = charCount c a + charCount c b := by
  unfold charCount
  rw [string_data_append, List.count_append]

theorem charCount_natDecimal {c : Char} (hc : c ∉ digitList) (n : Nat) :
    charCount c (natDecimal n) = 0 := by
  unfold charCount
  exact List.count_eq_zero.mpr (fun hmem => hc (mem_natDecimal_data hmem))

theorem charCount_pad2 {c : Char} (hc : c ∉ digitList) (n : Nat) :
    charCount c (pad2 n) = 0 := by
  have hc0 : c ≠ '0' := fun h => hc (h ▸ (by decide : '0' ∈ digitList))
  have h0 : charCount c "0" = 0 := by
    unfold charCount
    refine List.count_eq_zero.mpr (fun hmem => ?_)
    have hm : c ∈ ['0'] := hmem
    exact hc0 (by simpa using hm)
  unfold pad2
  split
  · rw [charCount_append, charCount_natDecimal hc, h0]
  · exact charCount_natDecimal hc n

theorem dash_not_digit : '-' ∉ digitList := by decide

theorem wchar_not_digit : 'W' ∉ digitList := by decide

theorem lchar_not_digit : 'l' ∉ digitList := by decide

theorem charCount_dayKey (c : Char) (hc : c ∉ digitList) (t : UTCTime) :
    charCount c (dayKey t) = 2 * charCount c "-" := by
  unfold dayKey
  rw [charCount_append, charCount_append, charCount_append, charCount_append,
    charCount_natDecimal hc, charCount_pad2 hc, charCount_pad2 hc]
  ring

theorem charCount_weekKey (c : Char) (hc : c ∉ digitList) (y w : Nat) :
    charCount c (weekKey y w) = charCount c "-W" := by
  unfold weekKey
  rw [charCount_append, charCount_append, charCount_natDecimal hc, charCount_pad2 hc]
  ring

theorem charCount_monthKey (c : Char) (hc : c ∉ digitList) (t : UTCTime) :
    charCount c (monthKey t) = charCount c "-" := by
  unfold monthKey
  rw [charCount_append, charCount_append, charCount_natDecimal hc, charCount_pad2 hc]
  ring

theorem charCount_yearKey (c : Char) (hc : c ∉ digitList) (t : UTCTime) :
    charCount c (yearKey t) = 0 := charCount_natDecimal hc t.year

theorem ne_of_charCount {s1 s2 : String} (c : Char)
    (h : charCount c s1 ≠ charCount c s2) : s1 ≠ s2 :=
  fun he => h (congrArg (charCount c) he)

theorem dayKey_dash (t : UTCTime) : charCount '-' (dayKey t) = 2 := by
  rw [charCount_dayKey '-' dash_not_digit]; decide

theorem weekKey_dash (y w : Nat) : charCount '-' (weekKey y w) = 1 := by
  rw [charCount_weekKey '-' dash_not_digit]; decide

theorem monthKey_dash (t : UTCTime) : charCount '-' (monthKey t) = 1 := by
  rw [charCount_monthKey '-' dash_not_digit]; decide

theorem yearKey_dash (t : UTCTime) : charCount '-' (yearKey t) = 0 :=
  charCount_yearKey '-' dash_not_digit t

theorem weekKey_wchar (y w : Nat) : charCount 'W' (weekKey y w) = 1 := by
  rw [charCount_weekKey 'W' wchar_not_digit]; decide

theorem monthKey_wchar (t : UTCTime) : charCount 'W' (monthKey t) = 0 := by
  rw [charCount_monthKey 'W' wchar_not_digit]; decide

theorem totalKey_dash : charCount '-' "total" = 0 := by decide

theorem totalKey_tchar : charCount 't' "total" = 2 := by decide

theorem yearKey_tchar (t : UTCTime) : charCount 't' (yearKey t) = 0 :=
  charCount_yearKey 't' (by decide) t

/-- The five period keys returned for any instant are pairwise distinct:
the day key has two dashes, week and month keys one, year and "total" none;
the week key contains a `W` and the month key does not; the year key is all
digits while "total" contains a `t`. -/
theorem getPeriodKeys_nodup (t : UTCTime) : (Analytics.getPeriodKeys t).Nodup := by
  unfold Analytics.getPeriodKeys
  refine List.nodup_cons.mpr ⟨?_, List.nodup_cons.mpr ⟨?_, List.nodup_cons.mpr ⟨?_,
    List.nodup_cons.mpr ⟨?_, List.nodup_singleton _⟩⟩⟩⟩
  · intro h
    simp only [List.mem_cons, List.mem_singleton, List.not_mem_nil, or_false] at h
    rcases h with h | h | h | h
    · exact ne_of_charCount '-' (by rw [dayKey_dash, weekKey_dash]; omega) h
    · exact ne_of_charCount '-' (by rw [dayKey_dash, monthKey_dash]; omega) h
    · exact ne_of_charCount '-' (by rw [dayKey_dash, yearKey_dash]; omega) h
    · exact ne_of_charCount '-' (by rw [dayKey_dash, totalKey_dash]; omega) h
  · intro h
    simp only [List.mem_cons, List.mem_singleton, List.not_mem_nil, or_false] at h
    rcases h with h | h | h
    · exact ne_of_charCount 'W' (by rw [weekKey_wchar, monthKey_wchar]; omega) h
    · exact ne_of_charCount '-' (by rw [weekKey_dash, yearKey_dash]; omega) h
    · exact ne_of_charCount '-' (by rw [weekKey_dash, totalKey_dash]; omega) h
  · intro h
    simp only [List.mem_cons, List.mem_singleton, List.not_mem_nil, or_false] at h
    rcases h with h | h
    · exact ne_of_charCount '-' (by rw [monthKey_dash, yearKey_dash]; omega) h
    · exact ne_of_charCount '-' (by rw [monthKey_dash, totalKey_dash]; omega) h
  · intro h
    simp only [List.mem_singleton] at h
    exact ne_of_charCount 't' (by rw [yearKey_tchar, totalKey_tchar]; omega) h

/-- The period strings that can ever be produced by `_get_period_keys`. -/
def ValidPeriod (p : String) : Prop :=
  p = "total" ∨ (∃ t : UTCTime, p = dayKey t) ∨ (∃ y w : Nat, p = weekKey y w) ∨
    (∃ t : UTCTime, p = monthKey t) ∨ ∃ t : UTCTime, p = yearKey t

theorem validPeriod_of_mem_getPeriodKeys {p : String} {t : UTCTime}
    (h : p ∈ Analytics.getPeriodKeys t) : ValidPeriod p := by
  unfold Analytics.getPeriodKeys at h
  simp only [List.mem_cons, List.mem_singleton, List.not_mem_nil, or_false] at h
  rcases h with h | h | h | h | h
  · exact Or.inr (Or.inl ⟨t, h⟩)
  · exact Or.inr (Or.inr (Or.inl ⟨t.year, weekOfYearU t, h⟩))
  · exact Or.inr (Or.inr (Or.inr (Or.inl ⟨t, h⟩)))
  · exact Or.inr (Or.inr (Or.inr (Or.inr ⟨t, h⟩)))
  · exact Or.inl h

/-- No valid period key is one of the literal strings the stats-UI helper
looks up: those have no dash (so are not day/week/month keys), contain an `l`
(so are not all-digit year keys), and are not "total". -/
theorem not_validPeriod_of_counts {p : String} (ht : p ≠ "total")
    (hd : charCount '-' p = 0) (hl : charCount 'l' p ≠ 0) : ¬ ValidPeriod p := by
  rintro (h | ⟨t, h⟩ | ⟨y, w, h⟩ | ⟨t, h⟩ | ⟨t, h⟩)
  · exact ht h
  · rw [h, dayKey_dash] at hd; omega
  · rw [h, weekKey_dash] at hd; omega
  · rw [h, monthKey_dash] at hd; omega
  · rw [h, charCount_yearKey 'l' lchar_not_digit] at hl; omega

theorem not_validPeriod_daily : ¬ ValidPeriod "daily" :=
  not_validPeriod_of_counts (by decide) (by decide) (by decide)

theorem not_validPeriod_weekly : ¬ ValidPeriod "weekly" :=
  not_validPeriod_of_counts (by decide) (by decide) (by decide)

theorem not_validPeriod_monthly : ¬ ValidPeriod "monthly" :=
  not_validPeriod_of_counts (by decide) (by decide) (by decide)

theorem not_validPeriod_yearly : ¬ ValidPeriod "yearly" :=
  not_validPeriod_of_counts (by decide) (by decide) (by decide)

/-! ### The week key encodes the year -/

theorem noSep_append_inj {c : Char} : ∀ {l1 l2 r1 r2 : List Char},
    l1 ++ c :: r1 = l2 ++ c :: r2 → c ∉ l1 → c ∉ l2 → l1 = l2 ∧ r1 = r2 := by
  intro l1
  induction l1 with
  | nil =>
    intro l2 r1 r2 h h1 h2
    cases l2 with
    | nil => simpa using h
    | cons b l2' =>
      exfalso
      simp only [List.nil_append, List.cons_append, List.cons.injEq] at h
      exact h2 (h.1 ▸ List.mem_cons_self _ _)
  | cons a l1' ih =>
    intro l2 r1 r2 h h1 h2
    cases l2 with
    | nil =>
      exfalso
      simp only [List.cons_append, List.nil_append, List.cons.injEq] at h
      exact h1 (h.1.symm ▸ List.mem_cons_self _ _)
    | cons b l2' =>
      simp only [List.cons_append, List.cons.injEq] at h
      have hr := ih h.2 (fun hm => h1 (List.mem_cons_of_mem _ hm))
        (fun hm => h2 (List.mem_cons_of_mem _ hm))
      exact ⟨by rw [h.1, hr.1], hr.2⟩

theorem weekKey_data (y w : Nat) :
    (weekKey y w).data = (natDecimal y).data ++ '-' :: 'W' :: (pad2 w).data := by
  unfold weekKey
  rw [string_data_append, string_data_append, List.append_assoc]
  rfl

theorem dash_not_mem_natDecimal (n : Nat) : '-' ∉ (natDecimal n).data :=
  fun h => dash_not_digit (mem_natDecimal_data h)

/-- The week key determines the year: `f"{year}-W{...}"` for different years
gives different strings, whatever the week ordinals are. -/
theorem weekKey_year_inj {y1 w1 y2 w2 : Nat} (h : weekKey y1 w1 = weekKey y2 w2) :
    y1 = y2 := by
  have hd := congrArg String.data h
  rw [weekKey_data, weekKey_data] at hd
  have hsplit := noSep_append_inj hd (dash_not_mem_natDecimal y1) (dash_not_mem_natDecimal y2)
  exact natDecimal_inj (string_eq_of_data_eq hsplit.1)

/-! ## Lemmas about `Analytics.access` -/

/-- Bump the "docsifer" cell of each period in `ps`, in order, by `v`. -/
def bumpAll (ps : List String) (t : Table) (v : Int) : Table :=
  ps.foldl (fun acc p => tincr acc p "docsifer" v) t

/-- The interleaved four-table loop of `access` acts on each of the four
tables independently. -/
theorem access_decomp : ∀ (ps : List String) (s : AnalyticsState) (tk : Int),
    ps.foldl (accessStep tk) s =
      ⟨⟨bumpAll ps s.current_totals.access 1, bumpAll ps s.current_totals.tokens tk⟩,
       ⟨bumpAll ps s.new_increments.access 1, bumpAll ps s.new_increments.tokens tk⟩⟩ := by
  intro ps
  induction ps with
  | nil => intro s tk; simp [bumpAll]
  | cons p0 ps ih =>
    intro s tk
    have h1 : (p0 :: ps).foldl (accessStep tk) s = ps.foldl (accessStep tk) (accessStep tk s p0) :=
      rfl
    rw [h1, ih]
    rfl

theorem tgetc_bumpAll : ∀ (ps : List String) (t : Table) (v : Int) (p l : String),
    ps.Nodup →
    tgetc (bumpAll ps t v) p l =
      tgetc t p l + if p ∈ ps ∧ l = "docsifer" then v else 0 := by
  intro ps
  induction ps with
  | nil => intro t v p l _; simp [bumpAll]
  | cons p0 ps ih =>
    intro t v p l hnd
    have hnd' := List.nodup_cons.mp hnd
    have hstep : bumpAll (p0 :: ps) t v = bumpAll ps (tincr t p0 "docsifer" v) v := rfl
    rw [hstep, ih _ v p l hnd'.2, tgetc_tincr]
    by_cases hl : l = "docsifer"
    · subst hl
      by_cases hp0 : p = p0
      · subst hp0
        have hnotin : p ∉ ps := hnd'.1
        simp [hnotin]
      · have : ¬ p0 = p := fun h => hp0 h.symm
        by_cases hps : p ∈ ps <;> simp [hps, hp0, this]
    · have : ¬ "docsifer" = l := fun h => hl h.symm
      simp [hl, this]

theorem tableWF_bumpAll : ∀ (ps : List String) {t : Table}, TableWF t → ∀ v : Int,
    TableWF (bumpAll ps t v) := by
  intro ps
  induction ps with
  | nil => intro t ht v; exact ht
  | cons p0 ps ih =>
    intro t ht v
    exact ih (tableWF_tincr ht p0 "docsifer" v) v

theorem tkeys_bumpAll_subset : ∀ (ps : List String) (t : Table) (v : Int),
    ∀ q ∈ tkeys (bumpAll ps t v), q ∈ tkeys t ∨ q ∈ ps := by
  intro ps
  induction ps with
  | nil => intro t v q hq; exact Or.inl hq
  | cons p0 ps ih =>
    intro t v q hq
    rcases ih (tincr t p0 "docsifer" v) v q hq with h | h
    · rcases tkeys_tincr_subset t p0 "docsifer" v q h with h' | h'
      · exact Or.inl h'
      · exact Or.inr (by simp [h'])
    · exact Or.inr (by simp [h])

/-- Every cell of a table is non-negative. -/
def TableNonneg (t : Table) : Prop := ∀ p l : String, 0 ≤ tgetc t p l

theorem tableNonneg_tincr {t : Table} (h : TableNonneg t) {v : Int} (hv : 0 ≤ v)
    (p l : String) : TableNonneg (tincr t p l v) := by
  intro p' l'
  rw [tgetc_tincr]
  have := h p' l'
  split <;> omega

theorem tableNonneg_bumpAll : ∀ (ps : List String) {t : Table}, TableNonneg t →
    ∀ {v : Int}, 0 ≤ v → TableNonneg (bumpAll ps t v) := by
  intro ps
  induction ps with
  | nil => intro t ht v _; exact ht
  | cons p0 ps ih =>
    intro t ht v hv
    exact ih (tableNonneg_tincr ht hv p0 "docsifer") hv

/-! ## Lemmas about `Analytics.stats` -/

theorem fkeys_append (a b : Fields) : fkeys (a ++ b) = fkeys a ++ fkeys b :=
  List.map_append _ a b

theorem fset_append_of_not_mem {f : Fields} {k : String} (h : k ∉ fkeys f) (v : Int) :
    fset f k v = f ++ [(k, v)] := by
  induction f with
  | nil => rfl
  | cons e rest ih =>
    obtain ⟨k0, v0⟩ := e
    simp only [fkeys, List.map_cons, List.mem_cons] at h
    push_neg at h
    have hne : k0 ≠ k := fun hh => h.1 hh.symm
    simp only [fset, if_neg hne, List.cons_append, List.cons.injEq, true_and]
    exact ih (by simpa [fkeys] using h.2)

theorem foldl_fset_eq_append : ∀ (f : Fields) (acc : Fields), FieldsWF f →
    (∀ k ∈ fkeys f, k ∉ fkeys acc) →
    f.foldl (fun a kv => fset a kv.1 kv.2) acc = acc ++ f := by
  intro f
  induction f with
  | nil => intro acc _ _; simp
  | cons e rest ih =>
    intro acc hWF hdis
    obtain ⟨k0, v0⟩ := e
    have hk0 : k0 ∉ fkeys acc := hdis k0 (by simp [fkeys])
    have hstep : (((k0, v0) :: rest).foldl (fun a kv => fset a kv.1 kv.2) acc) =
        rest.foldl (fun a kv => fset a kv.1 kv.2) (fset acc k0 v0) := rfl
    rw [hstep, fset_append_of_not_mem hk0 v0]
    have hWF2 : (k0 :: rest.map Prod.fst).Nodup := hWF
    have hWF' := List.nodup_cons.mp hWF2
    rw [ih (acc ++ [(k0, v0)]) hWF'.2 ?_]
    · simp
    · intro k hk
      rw [fkeys_append]
      simp only [List.mem_append]
      push_neg
      refine ⟨hdis k (List.mem_cons_of_mem _ hk), fun hsing => ?_⟩
      have hks : k = k0 := by simpa [fkeys] using hsing
      rw [hks] at hk
      exact hWF'.1 hk

theorem dictCopy_eq {f : Fields} (hf : FieldsWF f) : dictCopy f = f := by
  unfold dictCopy
  rw [foldl_fset_eq_append f [] hf (by intro k _; simp [fkeys])]
  simp

theorem copyTable_eq {t : Table} (ht : TableWF t) : copyTable t = t := by
  unfold copyTable
  induction t with
  | nil => rfl
  | cons e rest ih =>
    simp only [List.map_cons]
    rw [dictCopy_eq (ht.2 e (by simp)), ih ⟨(List.nodup_cons.mp ht.1).2,
      fun e' he' => ht.2 e' (by simp [he'])⟩]

/-! ## Lemmas about `Analytics._sync_to_redis` -/

/-- The (metric, period, label) cell addressed by one HINCRBY call. -/
def writeCell (w : Metric × String × String × Int) : Metric × String × String :=
  (w.1, w.2.1, w.2.2.1)

/-- The amount carried by one HINCRBY call. -/
def writeVal (w : Metric × String × String × Int) : Int := w.2.2.2

/-- Total amount a write list adds to one remote cell. -/
def sumAtW (ws : List (Metric × String × String × Int)) (mt : Metric) (p l : String) : Int :=
  ((ws.filter (fun w => writeCell w == (mt, p, l))).map writeVal).sum

/-- Total amount a single-metric write list adds to one remote cell. -/
def sumAtT (ws : List (String × String × Int)) (p l : String) : Int :=
  ((ws.filter (fun w => (w.1, w.2.1) == (p, l))).map (fun w => w.2.2)).sum

theorem sumAtW_nil (mt : Metric) (p l : String) : sumAtW [] mt p l = 0 := rfl

theorem sumAtW_cons (w) (ws) (mt : Metric) (p l : String) :
    sumAtW (w :: ws) mt p l =
      (if writeCell w = (mt, p, l) then writeVal w else 0) + sumAtW ws mt p l := by
  unfold sumAtW
  rw [List.filter_cons]
  by_cases h : writeCell w = (mt, p, l)
  · simp [h]
  · simp [h]

theorem sumAtT_cons (w) (ws) (p l : String) :
    sumAtT (w :: ws) p l =
      (if (w.1, w.2.1) = (p, l) then w.2.2 else 0) + sumAtT ws p l := by
  unfold sumAtT
  rw [List.filter_cons]
  by_cases h : (w.1, w.2.1) = (p, l)
  · simp [h]
  · simp [h]

theorem sumAtW_append (a b) (mt : Metric) (p l : String) :
    sumAtW (a ++ b) mt p l = sumAtW a mt p l + sumAtW b mt p l := by
  unfold sumAtW
  rw [List.filter_append, List.map_append, List.sum_append]

theorem sumAtT_append (a b) (p l : String) :
    sumAtT (a ++ b) p l = sumAtT a p l + sumAtT b p l := by
  unfold sumAtT
  rw [List.filter_append, List.map_append, List.sum_append]

theorem sumAtT_eq_zero {ws : List (String × String × Int)} {p l : String}
    (h : ∀ w ∈ ws, ¬ (w.1 = p ∧ w.2.1 = l)) : sumAtT ws p l = 0 := by
  induction ws with
  | nil => rfl
  | cons w ws ih =>
    rw [sumAtT_cons]
    have hw : ¬ (w.1, w.2.1) = (p, l) := by
      intro he
      exact h w (by simp) ⟨congrArg Prod.fst he, congrArg Prod.snd he⟩
    rw [if_neg hw, ih (fun w' hw' => h w' (by simp [hw']))]
    ring

theorem sumAtW_map_tag (ws : List (String × String × Int)) (mtag mt : Metric)
    (p l : String) :
    sumAtW (ws.map (fun w => (mtag, w))) mt p l =
      if mtag = mt then sumAtT ws p l else 0 := by
  induction ws with
  | nil => simp [sumAtW_nil, sumAtT]
  | cons w ws ih =>
    rw [List.map_cons, sumAtW_cons, ih, sumAtT_cons]
    by_cases hm : mtag = mt
    · subst hm
      simp only [if_true, eq_self_iff_true]
      have hcell : writeCell (mtag, w) = (mtag, p, l) ↔ (w.1, w.2.1) = (p, l) := by
        unfold writeCell
        constructor
        · intro h
          have h1 := congrArg (fun x => x.2.1) h
          have h2 := congrArg (fun x => x.2.2) h
          exact Prod.ext h1 h2
        · intro h
          have h1 := congrArg Prod.fst h
          have h2 := congrArg Prod.snd h
          simp only at h1 h2
          simp [Prod.ext_iff, h1, h2]
      by_cases hc : (w.1, w.2.1) = (p, l)
      · rw [if_pos (hcell.mpr hc), if_pos hc]
        rfl
      · rw [if_neg (fun h => hc (hcell.mp h)), if_neg hc]
    · have hcell : ¬ writeCell (mtag, w) = (mt, p, l) := by
        intro h
        exact hm (congrArg Prod.fst h)
      simp [hcell, hm]

theorem tgetc_applyWrite (r : CounterTables) (w) (mt : Metric) (p l : String) :
    tgetc ((applyWrite r w).tab mt) p l =
      tgetc (r.tab mt) p l + if writeCell w = (mt, p, l) then writeVal w else 0 := by
  obtain ⟨wm, wp, wl, wv⟩ := w
  cases wm <;> cases mt <;>
    simp [applyWrite, CounterTables.tab, writeCell, writeVal, tgetc_tincr, Prod.ext_iff]

theorem tgetc_foldl_applyWrite : ∀ ws (r : CounterTables) (mt : Metric) (p l : String),
    tgetc ((ws.foldl applyWrite r).tab mt) p l = tgetc (r.tab mt) p l + sumAtW ws mt p l := by
  intro ws
  induction ws with
  | nil => intro r mt p l; simp [sumAtW_nil]
  | cons w ws ih =>
    intro r mt p l
    have h1 : (w :: ws).foldl applyWrite r = ws.foldl applyWrite (applyWrite r w) := rfl
    rw [h1, ih, tgetc_applyWrite, sumAtW_cons]
    ring

theorem mem_tableWrites_period {t : Table} {w : String × String × Int}
    (hw : w ∈ tableWrites t) : w.1 ∈ tkeys t := by
  unfold tableWrites at hw
  rw [List.mem_flatMap] at hw
  obtain ⟨e, he, hwe⟩ := hw
  rw [List.mem_map] at hwe
  obtain ⟨kv, _, hkv⟩ := hwe
  rw [← hkv]
  exact List.mem_map.mpr ⟨e, he, rfl⟩

theorem mem_tableWrites_label {t : Table} {w : String × String × Int}
    (hw : w ∈ tableWrites t) : ∃ e ∈ t, w.1 = e.1 ∧ (w.2.1, w.2.2) ∈ e.2 ∧ w.2.2 ≠ 0 := by
  unfold tableWrites at hw
  rw [List.mem_flatMap] at hw
  obtain ⟨e, he, hwe⟩ := hw
  rw [List.mem_map] at hwe
  obtain ⟨kv, hkvf, hkv⟩ := hwe
  rw [List.mem_filter] at hkvf
  refine ⟨e, he, ?_, ?_, ?_⟩
  · rw [← hkv]
  · rw [← hkv]
    exact hkvf.1
  · rw [← hkv]
    simpa using hkvf.2

theorem sumAtT_zero_of_not_mem {t : Table} {p : String} (h : p ∉ tkeys t) (l : String) :
    sumAtT (tableWrites t) p l = 0 := by
  refine sumAtT_eq_zero (fun w hw hc => ?_)
  exact h (hc.1 ▸ mem_tableWrites_period hw)

theorem block_label_mem {fs : Fields} {q : String} {w : String × String × Int}
    (hw : w ∈ (fs.filter (fun kv => kv.2 != 0)).map (fun kv => (q, kv.1, kv.2))) :
    w.1 = q ∧ w.2.1 ∈ fkeys fs := by
  rw [List.mem_map] at hw
  obtain ⟨kv, hkvf, hkv⟩ := hw
  rw [List.mem_filter] at hkvf
  constructor
  · rw [← hkv]
  · rw [← hkv]
    exact List.mem_map.mpr ⟨kv, hkvf.1, rfl⟩

theorem sumAtT_block_ne {fs : Fields} {q p : String} (h : ¬ q = p) (l : String) :
    sumAtT ((fs.filter (fun kv => kv.2 != 0)).map (fun kv => (q, kv.1, kv.2))) p l = 0 := by
  refine sumAtT_eq_zero (fun w hw hc => ?_)
  exact h ((block_label_mem hw).1 ▸ hc.1)

theorem sumAtT_block_notl {fs : Fields} {l : String} (h : l ∉ fkeys fs) (q : String) :
    sumAtT ((fs.filter (fun kv => kv.2 != 0)).map (fun kv => (q, kv.1, kv.2))) q l = 0 := by
  refine sumAtT_eq_zero (fun w hw hc => ?_)
  exact h (hc.2 ▸ (block_label_mem hw).2)

theorem sumAtT_block {fs : Fields} (hf : FieldsWF fs) (q l : String) :
    sumAtT ((fs.filter (fun kv => kv.2 != 0)).map (fun kv => (q, kv.1, kv.2))) q l =
      fget fs l := by
  induction fs with
  | nil => rfl
  | cons kv rest ih =>
    obtain ⟨l0, v0⟩ := kv
    have hWF2 : (l0 :: rest.map Prod.fst).Nodup := hf
    have hWF' := List.nodup_cons.mp hWF2
    rw [List.filter_cons]
    by_cases hv : v0 = 0
    · simp only [hv]
      norm_num
      by_cases hl : l0 = l
      · subst hl
        rw [sumAtT_block_notl hWF'.1 q]
        simp [fget, hv]
      · simp only [fget, if_neg hl]
        exact ih hWF'.2
    · have hvb : ((l0, v0).2 != 0) = true := by simpa using hv
      rw [hvb]
      simp only [if_true, List.map_cons, sumAtT_cons]
      by_cases hl : l0 = l
      · subst hl
        rw [if_pos rfl, sumAtT_block_notl hWF'.1 q]
        simp [fget]
      · have hc : ¬ ((q, (l0, v0).1, (l0, v0).2).1, (q, (l0, v0).1, (l0, v0).2).2.1) = (q, l) := by
          simp only [Prod.ext_iff]
          intro hcc
          exact hl hcc.2
        rw [if_neg hc, ih hWF'.2]
        simp [fget, hl]

theorem sumAtT_tableWrites {t : Table} (ht : TableWF t) (p l : String) :
    sumAtT (tableWrites t) p l = tgetc t p l := by
  induction t with
  | nil => rfl
  | cons e rest ih =>
    obtain ⟨p0, fs⟩ := e
    have hnd : (p0 :: rest.map Prod.fst).Nodup := ht.1
    have hnd' := List.nodup_cons.mp hnd
    have hblock : tableWrites ((p0, fs) :: rest) =
        ((fs.filter (fun kv => kv.2 != 0)).map (fun kv => (p0, kv.1, kv.2))) ++
          tableWrites rest := by
      unfold tableWrites
      rw [List.flatMap_cons]
    rw [hblock, sumAtT_append]
    by_cases hp : p0 = p
    · subst hp
      rw [sumAtT_block (ht.2 (p0, fs) (by simp)) p0 l,
        sumAtT_zero_of_not_mem hnd'.1 l]
      simp [tgetc, tget]
    · rw [sumAtT_block_ne hp l,
        ih ⟨hnd'.2, fun e' he' => ht.2 e' (by simp [he'])⟩]
      simp [tgetc, tget, hp]

/-- For well-formed pending tables, the amounts one flush writes to a remote
cell sum to exactly the pending delta of that cell. -/
theorem sumAtW_flushWrites {inc : CounterTables} (h : TablesWF inc) (mt : Metric)
    (p l : String) : sumAtW (flushWrites inc) mt p l = tgetc (inc.tab mt) p l := by
  unfold flushWrites
  rw [sumAtW_append, sumAtW_map_tag, sumAtW_map_tag]
  cases mt
  · simp only [if_true, eq_self_iff_true]
    rw [sumAtT_tableWrites h.1]
    have : ¬ Metric.tokens = Metric.access := by decide
    simp [this, CounterTables.tab]
  · simp only [if_true, eq_self_iff_true]
    rw [sumAtT_tableWrites h.2]
    have : ¬ Metric.access = Metric.tokens := by decide
    simp [this, CounterTables.tab]

theorem fget_of_mem {f : Fields} (hf : FieldsWF f) {l : String} {v : Int}
    (hm : (l, v) ∈ f) : fget f l = v := by
  induction f with
  | nil => simp at hm
  | cons kv rest ih =>
    obtain ⟨l0, v0⟩ := kv
    have hWF2 : (l0 :: rest.map Prod.fst).Nodup := hf
    have hWF' := List.nodup_cons.mp hWF2
    rcases List.mem_cons.mp hm with h | h
    · have hl : l0 = l := (congrArg Prod.fst h).symm
      have hv : v0 = v := (congrArg Prod.snd h).symm
      simp [fget, hl, hv]
    · have hl0 : l0 ≠ l := by
        intro he
        subst he
        exact hWF'.1 (List.mem_map.mpr ⟨(l0, v), h, rfl⟩)
      simp only [fget, if_neg hl0]
      exact ih hWF'.2 h

theorem fget_mem {f : Fields} {l : String} {v : Int} (h : fget f l = v) (hv : v ≠ 0) :
    (l, v) ∈ f := by
  induction f with
  | nil =>
    exact absurd h.symm hv
  | cons kv rest ih =>
    obtain ⟨l0, v0⟩ := kv
    by_cases hl : l0 = l
    · subst hl
      rw [show fget ((l0, v0) :: rest) l0 = v0 from by simp [fget]] at h
      subst h
      exact List.mem_cons_self _ _
    · rw [show fget ((l0, v0) :: rest) l = fget rest l from by simp [fget, hl]] at h
      exact List.mem_cons_of_mem _ (ih h)

theorem tget_of_mem {t : Table} (hnd : (t.map Prod.fst).Nodup) {e : String × Fields}
    (he : e ∈ t) : tget t e.1 = e.2 := by
  induction t with
  | nil => simp at he
  | cons e0 rest ih =>
    obtain ⟨p0, f0⟩ := e0
    have hnd' := List.nodup_cons.mp (show (p0 :: rest.map Prod.fst).Nodup from hnd)
    rcases List.mem_cons.mp he with h | h
    · subst h
      simp [tget]
    · have hp0 : p0 ≠ e.1 := by
        intro hp
        exact hnd'.1 (hp ▸ List.mem_map.mpr ⟨e, h, rfl⟩)
      simp only [tget, if_neg hp0]
      exact ih hnd'.2 h

theorem mem_of_tkeys {t : Table} {p : String} (h : p ∈ tkeys t) : (p, tget t p) ∈ t := by
  induction t with
  | nil => simp [tkeys] at h
  | cons e0 rest ih =>
    obtain ⟨p0, f0⟩ := e0
    by_cases hp : p0 = p
    · subst hp
      simp [tget]
    · have hmem : p ∈ tkeys rest := by
        have : p ∈ p0 :: rest.map Prod.fst := h
        rcases List.mem_cons.mp this with h' | h'
        · exact absurd h'.symm hp
        · exact h'
      simp only [tget, if_neg hp]
      exact List.mem_cons_of_mem _ (ih hmem)

/-- Characterization of the HINCRBY calls of one metric: exactly the non-zero
cells, carrying exactly their pending value. -/
theorem mem_tableWrites_iff {t : Table} (ht : TableWF t) (p l : String) (v : Int) :
    (p, l, v) ∈ tableWrites t ↔ tgetc t p l = v ∧ v ≠ 0 := by
  constructor
  · intro hw
    obtain ⟨e, he, h1, h2, h3⟩ := mem_tableWrites_label hw
    have htg : tget t p = e.2 := by
      have := tget_of_mem ht.1 he
      rw [show p = e.1 from h1]
      exact this
    refine ⟨?_, h3⟩
    unfold tgetc
    rw [htg]
    exact fget_of_mem (ht.2 e he) h2
  · rintro ⟨hv, hnz⟩
    have hp : p ∈ tkeys t := by
      by_contra hnp
      rw [tgetc_eq_zero_of_not_mem hnp] at hv
      exact hnz hv.symm
    have he := mem_of_tkeys hp
    have hfm : (l, v) ∈ tget t p := fget_mem hv hnz
    unfold tableWrites
    rw [List.mem_flatMap]
    refine ⟨(p, tget t p), he, ?_⟩
    rw [List.mem_map]
    refine ⟨(l, v), ?_, rfl⟩
    rw [List.mem_filter]
    exact ⟨hfm, by simpa using hnz⟩

/-- Characterization of all HINCRBY calls of one flush. -/
theorem mem_flushWrites_iff {inc : CounterTables} (h : TablesWF inc) (mt : Metric)
    (p l : String) (v : Int) :
    (mt, p, l, v) ∈ flushWrites inc ↔ tgetc (inc.tab mt) p l = v ∧ v ≠ 0 := by
  unfold flushWrites
  rw [List.mem_append]
  cases mt
  · constructor
    · intro hmem
      rcases hmem with hm | hm
      · rw [List.mem_map] at hm
        obtain ⟨w, hw, he⟩ := hm
        have hww : w = (p, l, v) := congrArg Prod.snd he
        subst hww
        exact (mem_tableWrites_iff h.1 p l v).mp hw
      · exfalso
        rw [List.mem_map] at hm
        obtain ⟨w, _, he⟩ := hm
        exact absurd (show Metric.tokens = Metric.access from congrArg Prod.fst he)
          (by decide)
    · intro hv
      exact Or.inl (List.mem_map.mpr ⟨(p, l, v),
        (mem_tableWrites_iff h.1 p l v).mpr hv, rfl⟩)
  · constructor
    · intro hmem
      rcases hmem with hm | hm
      · exfalso
        rw [List.mem_map] at hm
        obtain ⟨w, _, he⟩ := hm
        exact absurd (show Metric.access = Metric.tokens from congrArg Prod.fst he)
          (by decide)
      · rw [List.mem_map] at hm
        obtain ⟨w, hw, he⟩ := hm
        have hww : w = (p, l, v) := congrArg Prod.snd he
        subst hww
        exact (mem_tableWrites_iff h.2 p l v).mp hw
    · intro hv
      exact Or.inr (List.mem_map.mpr ⟨(p, l, v),
        (mem_tableWrites_iff h.2 p l v).mpr hv, rfl⟩)

/-- Each flush addresses each (period, label) cell at most once. -/
theorem tableWrites_cells_nodup {t : Table} (ht : TableWF t) :
    ((tableWrites t).map (fun w => (w.1, w.2.1))).Nodup := by
  induction t with
  | nil => exact List.nodup_nil
  | cons e rest ih =>
    obtain ⟨p0, fs⟩ := e
    have hnd' := List.nodup_cons.mp (show (p0 :: rest.map Prod.fst).Nodup from ht.1)
    have hblock : tableWrites ((p0, fs) :: rest) =
        ((fs.filter (fun kv => kv.2 != 0)).map (fun kv => (p0, kv.1, kv.2))) ++
          tableWrites rest := by
      unfold tableWrites
      rw [List.flatMap_cons]
    rw [hblock, List.map_append]
    refine List.Nodup.append ?_ ?_ ?_
    · rw [List.map_map]
      have hsub : ((fs.filter (fun kv => kv.2 != 0)).map Prod.fst).Sublist
          (fs.map Prod.fst) := List.Sublist.map _ (List.filter_sublist fs)
      have hfnd : ((fs.filter (fun kv => kv.2 != 0)).map Prod.fst).Nodup :=
        List.Nodup.sublist hsub (ht.2 (p0, fs) (by simp))
      have hcomp : ((fun w : String × String × Int => (w.1, w.2.1)) ∘
          (fun kv : String × Int => (p0, kv.1, kv.2))) =
          (fun k : String => (p0, k)) ∘ Prod.fst := rfl
      rw [hcomp, ← List.map_map]
      exact List.Nodup.map (fun a b hab => (Prod.mk.injEq _ _ _ _ ▸ hab : _ ∧ _).2) hfnd
    · exact ih ⟨hnd'.2, fun e' he' => ht.2 e' (by simp [he'])⟩
    · intro c hc1 hc2
      rw [List.map_map, List.mem_map] at hc1
      obtain ⟨kv, _, hkv⟩ := hc1
      rw [List.mem_map] at hc2
      obtain ⟨w, hw, hwc⟩ := hc2
      have hp1 : c.1 = p0 := by rw [← hkv]; rfl
      have hp2 : c.1 = w.1 := by rw [← hwc]
      exact hnd'.1 (hp1 ▸ hp2 ▸ mem_tableWrites_period hw)

theorem flushWrites_cells_nodup {inc : CounterTables} (h : TablesWF inc) :
    ((flushWrites inc).map writeCell).Nodup := by
  unfold flushWrites
  rw [List.map_append, List.map_map, List.map_map]
  refine List.Nodup.append ?_ ?_ ?_
  · have hcomp : (writeCell ∘ (fun w : String × String × Int => (Metric.access, w))) =
        (fun c : String × String => (Metric.access, c)) ∘ (fun w => (w.1, w.2.1)) := rfl
    rw [hcomp, ← List.map_map]
    exact List.Nodup.map (fun a b hab => ((Prod.mk.injEq _ _ _ _).mp hab).2)
      (tableWrites_cells_nodup h.1)
  · have hcomp : (writeCell ∘ (fun w : String × String × Int => (Metric.tokens, w))) =
        (fun c : String × String => (Metric.tokens, c)) ∘ (fun w => (w.1, w.2.1)) := rfl
    rw [hcomp, ← List.map_map]
    exact List.Nodup.map (fun a b hab => ((Prod.mk.injEq _ _ _ _).mp hab).2)
      (tableWrites_cells_nodup h.2)
  · intro c hc1 hc2
    rw [List.mem_map] at hc1 hc2
    obtain ⟨w1, _, h1⟩ := hc1
    obtain ⟨w2, _, h2⟩ := hc2
    have ha : Metric.access = c.1 := congrArg Prod.fst h1
    have hb : Metric.tokens = c.1 := congrArg Prod.fst h2
    exact absurd (ha.trans hb.symm) (by decide)

theorem mem_flushWrites_period {inc : CounterTables}
    {w : Metric × String × String × Int} (hw : w ∈ flushWrites inc) :
    w.2.1 ∈ tkeys (inc.tab w.1) := by
  unfold flushWrites at hw
  rw [List.mem_append] at hw
  rcases hw with hm | hm
  · rw [List.mem_map] at hm
    obtain ⟨w', hw', he⟩ := hm
    rw [← he]
    exact mem_tableWrites_period hw'
  · rw [List.mem_map] at hm
    obtain ⟨w', hw', he⟩ := hm
    rw [← he]
    exact mem_tableWrites_period hw'

/-! ### Preservation lemmas for the remote store -/

theorem tablesWF_applyWrite {r : CounterTables} (h : TablesWF r)
    (w : Metric × String × String × Int) : TablesWF (applyWrite r w) := by
  obtain ⟨wm, wp, wl, wv⟩ := w
  cases wm
  · exact ⟨tableWF_tincr h.1 wp wl wv, h.2⟩
  · exact ⟨h.1, tableWF_tincr h.2 wp wl wv⟩

theorem tablesWF_foldl_applyWrite : ∀ (ws : List (Metric × String × String × Int))
    {r : CounterTables}, TablesWF r → TablesWF (ws.foldl applyWrite r) := by
  intro ws
  induction ws with
  | nil => intro r h; exact h
  | cons w ws ih => intro r h; exact ih (tablesWF_applyWrite h w)

/-- Both tables of a pair are non-negative in every cell. -/
def TablesNonneg (c : CounterTables) : Prop := TableNonneg c.access ∧ TableNonneg c.tokens

theorem tablesNonneg_applyWrite {r : CounterTables} (h : TablesNonneg r)
    {w : Metric × String × String × Int} (hw : 0 ≤ writeVal w) :
    TablesNonneg (applyWrite r w) := by
  obtain ⟨wm, wp, wl, wv⟩ := w
  cases wm
  · exact ⟨tableNonneg_tincr h.1 hw wp wl, h.2⟩
  · exact ⟨h.1, tableNonneg_tincr h.2 hw wp wl⟩

theorem tablesNonneg_foldl_applyWrite : ∀ (ws : List (Metric × String × String × Int))
    {r : CounterTables}, TablesNonneg r → (∀ w ∈ ws, 0 ≤ writeVal w) →
    TablesNonneg (ws.foldl applyWrite r) := by
  intro ws
  induction ws with
  | nil => intro r h _; exact h
  | cons w ws ih =>
    intro r h hws
    exact ih (tablesNonneg_applyWrite h (hws w (by simp)))
      (fun w' hw' => hws w' (by simp [hw']))

/-- Every period key of a table was produced by `_get_period_keys`. -/
def TableKeysValid (t : Table) : Prop := ∀ p ∈ tkeys t, ValidPeriod p

/-- Key validity for a pair of tables. -/
def TablesKeysValid (c : CounterTables) : Prop :=
  TableKeysValid c.access ∧ TableKeysValid c.tokens

theorem tableKeysValid_tincr {t : Table} (h : TableKeysValid t) {p : String}
    (hp : ValidPeriod p) (l : String) (v : Int) : TableKeysValid (tincr t p l v) := by
  intro q hq
  rcases tkeys_tincr_subset t p l v q hq with h' | h'
  · exact h q h'
  · exact h' ▸ hp

theorem tableKeysValid_bumpAll : ∀ (ps : List String) {t : Table}, TableKeysValid t →
    (∀ p ∈ ps, ValidPeriod p) → ∀ v : Int, TableKeysValid (bumpAll ps t v) := by
  intro ps
  induction ps with
  | nil => intro t ht _ v; exact ht
  | cons p0 ps ih =>
    intro t ht hps v
    exact ih (tableKeysValid_tincr ht (hps p0 (by simp)) "docsifer" v)
      (fun p hp => hps p (by simp [hp])) v

theorem tablesKeysValid_applyWrite {r : CounterTables} (h : TablesKeysValid r)
    {w : Metric × String × String × Int} (hw : ValidPeriod w.2.1) :
    TablesKeysValid (applyWrite r w) := by
  obtain ⟨wm, wp, wl, wv⟩ := w
  cases wm
  · exact ⟨tableKeysValid_tincr h.1 hw wl wv, h.2⟩
  · exact ⟨h.1, tableKeysValid_tincr h.2 hw wl wv⟩

theorem tablesKeysValid_foldl_applyWrite : ∀ (ws : List (Metric × String × String × Int))
    {r : CounterTables}, TablesKeysValid r → (∀ w ∈ ws, ValidPeriod w.2.1) →
    TablesKeysValid (ws.foldl applyWrite r) := by
  intro ws
  induction ws with
  | nil => intro r h _; exact h
  | cons w ws ih =>
    intro r h hws
    exact ih (tablesKeysValid_applyWrite h (hws w (by simp)))
      (fun w' hw' => hws w' (by simp [hw']))

/-! ### Lemmas about `loadTable` -/

theorem tgetc_loadStep (a : Table) (q : String) (kv : String × Int) (p l : String) :
    tgetc (tset a q (fset (tget a q) kv.1 kv.2)) p l =
      if p = q ∧ l = kv.1 then kv.2 else tgetc a p l := by
  unfold tgetc
  rw [tget_tset]
  by_cases hq : q = p
  · subst hq
    rw [if_pos rfl, fget_fset]
    by_cases hl : kv.1 = l
    · simp [hl]
    · have hl' : ¬ l = kv.1 := fun h => hl h.symm
      simp [hl, hl']
  · have hq' : ¬ p = q := fun h => hq h.symm
    simp [hq, hq']

theorem tgetc_loadFields : ∀ (fs : Fields) (acc : Table) (q : String), FieldsWF fs →
    ∀ p l : String,
    tgetc (fs.foldl (fun a kv => tset a q (fset (tget a q) kv.1 kv.2)) acc) p l =
      if p = q ∧ l ∈ fkeys fs then fget fs l else tgetc acc p l := by
  intro fs
  induction fs with
  | nil => intro acc q _ p l; simp [fkeys]
  | cons kv rest ih =>
    intro acc q hWF p l
    obtain ⟨l0, v0⟩ := kv
    have hWF' := List.nodup_cons.mp (show (l0 :: rest.map Prod.fst).Nodup from hWF)
    have hstep : (((l0, v0) :: rest).foldl
        (fun a kv => tset a q (fset (tget a q) kv.1 kv.2)) acc) =
        rest.foldl (fun a kv => tset a q (fset (tget a q) kv.1 kv.2))
          (tset acc q (fset (tget acc q) l0 v0)) := rfl
    rw [hstep, ih _ q hWF'.2 p l,
      show tgetc (tset acc q (fset (tget acc q) l0 v0)) p l =
        if p = q ∧ l = l0 then v0 else tgetc acc p l from tgetc_loadStep acc q (l0, v0) p l]
    by_cases hpq : p = q
    · subst hpq
      by_cases hl0 : l = l0
      · subst hl0
        have hnot : l ∉ fkeys rest := hWF'.1
        rw [if_neg (fun hc : p = p ∧ l ∈ fkeys rest => hnot hc.2),
          if_pos (⟨rfl, rfl⟩ : p = p ∧ l = l),
          if_pos (⟨rfl, show l ∈ fkeys ((l, v0) :: rest) from by simp [fkeys]⟩ :
            p = p ∧ l ∈ fkeys ((l, v0) :: rest))]
        simp [fget]
      · have hl0' : ¬ l0 = l := fun h => hl0 h.symm
        by_cases hlr : l ∈ fkeys rest
        · rw [if_pos (⟨rfl, hlr⟩ : p = p ∧ l ∈ fkeys rest),
            if_pos (⟨rfl, show l ∈ l0 :: fkeys rest from
              List.mem_cons_of_mem _ hlr⟩ : p = p ∧ l ∈ fkeys ((l0, v0) :: rest))]
          simp [fget, hl0']
        · have hnc : ¬ (p = p ∧ l ∈ fkeys ((l0, v0) :: rest)) := by
            rintro ⟨-, hm⟩
            rcases List.mem_cons.mp (show l ∈ l0 :: rest.map Prod.fst from hm) with h | h
            · exact hl0 h
            · exact hlr h
          rw [if_neg (fun hc : p = p ∧ l ∈ fkeys rest => hlr hc.2),
            if_neg (fun hc : p = p ∧ l = l0 => hl0 hc.2), if_neg hnc]
    · simp [hpq]

theorem tgetc_loadOuter : ∀ (entries acc : Table), TableWF entries →
    ∀ p l : String,
    tgetc (entries.foldl (fun acc e =>
        e.2.foldl (fun a kv => tset a e.1 (fset (tget a e.1) kv.1 kv.2)) acc) acc) p l =
      if p ∈ tkeys entries ∧ l ∈ fkeys (tget entries p) then tgetc entries p l
      else tgetc acc p l := by
  intro entries
  induction entries with
  | nil => intro acc _ p l; simp [tkeys]
  | cons e rest ih =>
    intro acc hWF p l
    obtain ⟨p0, fs⟩ := e
    have hnd' := List.nodup_cons.mp (show (p0 :: rest.map Prod.fst).Nodup from hWF.1)
    have hWFr : TableWF rest := ⟨hnd'.2, fun e' he' => hWF.2 e' (by simp [he'])⟩
    have hstep : (((p0, fs) :: rest).foldl (fun acc e =>
        e.2.foldl (fun a kv => tset a e.1 (fset (tget a e.1) kv.1 kv.2)) acc) acc) =
        rest.foldl (fun acc e =>
          e.2.foldl (fun a kv => tset a e.1 (fset (tget a e.1) kv.1 kv.2)) acc)
          (fs.foldl (fun a kv => tset a p0 (fset (tget a p0) kv.1 kv.2)) acc) := rfl
    rw [hstep, ih _ hWFr p l,
      tgetc_loadFields fs acc p0 (hWF.2 (p0, fs) (by simp)) p l]
    by_cases hpr : p ∈ tkeys rest
    · have hp0 : ¬ p = p0 := by
        intro h
        exact hnd'.1 (h ▸ hpr)
      have htg : tget ((p0, fs) :: rest) p = tget rest p := by
        have hne : ¬ p0 = p := fun h => hp0 h.symm
        simp only [tget]
        rw [if_neg hne]
      by_cases hlr : l ∈ fkeys (tget rest p)
      · rw [if_pos ⟨hpr, hlr⟩,
          if_pos ⟨show p ∈ tkeys ((p0, fs) :: rest) from List.mem_cons_of_mem _ hpr,
            show l ∈ fkeys (tget ((p0, fs) :: rest) p) from htg ▸ hlr⟩]
        simp [tgetc, htg]
      · have hnc1 : ¬ (p ∈ tkeys rest ∧ l ∈ fkeys (tget rest p)) := fun hc => hlr hc.2
        have hnc2 : ¬ (p = p0 ∧ l ∈ fkeys fs) := fun hc => hp0 hc.1
        have hnc3 : ¬ (p ∈ tkeys ((p0, fs) :: rest) ∧
            l ∈ fkeys (tget ((p0, fs) :: rest) p)) := by
          rintro ⟨-, hm⟩
          exact hlr (htg ▸ hm)
        rw [if_neg hnc1, if_neg hnc2, if_neg hnc3]
    · by_cases hpp : p = p0
      · subst hpp
        have htg : tget ((p, fs) :: rest) p = fs := by simp [tget]
        have hnc1 : ¬ (p ∈ tkeys rest ∧ l ∈ fkeys (tget rest p)) := fun hc => hpr hc.1
        rw [if_neg hnc1]
        by_cases hlf : l ∈ fkeys fs
        · rw [if_pos ⟨rfl, hlf⟩,
            if_pos ⟨show p ∈ tkeys ((p, fs) :: rest) from by simp [tkeys],
              show l ∈ fkeys (tget ((p, fs) :: rest) p) from by rw [htg]; exact hlf⟩]
          simp [tgetc, htg]
        · have hnc2 : ¬ (p = p ∧ l ∈ fkeys fs) := fun hc => hlf hc.2
          have hnc3 : ¬ (p ∈ tkeys ((p, fs) :: rest) ∧
              l ∈ fkeys (tget ((p, fs) :: rest) p)) := by
            rintro ⟨-, hm⟩
            exact hlf (htg ▸ hm)
          rw [if_neg hnc2, if_neg hnc3]
      · have hnc1 : ¬ (p ∈ tkeys rest ∧ l ∈ fkeys (tget rest p)) := fun hc => hpr hc.1
        have hnc2 : ¬ (p = p0 ∧ l ∈ fkeys fs) := fun hc => hpp hc.1
        have hnc3 : ¬ (p ∈ tkeys ((p0, fs) :: rest) ∧
            l ∈ fkeys (tget ((p0, fs) :: rest) p)) := by
          rintro ⟨hm, -⟩
          rcases List.mem_cons.mp (show p ∈ p0 :: rest.map Prod.fst from hm) with h | h
          · exact hpp h
          · exact hpr h
        rw [if_neg hnc1, if_neg hnc2, if_neg hnc3]

/-- After a complete bootstrap load, every cell equals the remote cell. -/
theorem tgetc_loadTable {entries : Table} (h : TableWF entries) (p l : String) :
    tgetc (loadTable entries) p l = tgetc entries p l := by
  unfold loadTable
  rw [tgetc_loadOuter entries [] h p l]
  split
  · rfl
  · rename_i hc
    push_neg at hc
    show (0 : Int) = tgetc entries p l
    by_cases hp : p ∈ tkeys entries
    · rw [show tgetc entries p l = fget (tget entries p) l from rfl,
        fget_eq_zero_of_not_mem (hc hp)]
    · rw [tgetc_eq_zero_of_not_mem hp]

theorem tableWF_loadFieldsAux : ∀ (fs : Fields) (acc : Table) (q : String), TableWF acc →
    TableWF (fs.foldl (fun a kv => tset a q (fset (tget a q) kv.1 kv.2)) acc) := by
  intro fs
  induction fs with
  | nil => intro acc q h; exact h
  | cons kv rest ih =>
    intro acc q h
    exact ih _ q (tableWF_tset h (fieldsWF_fset (tget_wf h q) kv.1 kv.2) q)

theorem tableWF_loadTable (entries : Table) : TableWF (loadTable entries) := by
  unfold loadTable
  suffices h : ∀ (es : Table) (acc : Table), TableWF acc →
      TableWF (es.foldl (fun acc e =>
        e.2.foldl (fun a kv => tset a e.1 (fset (tget a e.1) kv.1 kv.2)) acc) acc) by
    exact h entries [] ⟨List.nodup_nil, by simp⟩
  intro es
  induction es with
  | nil => intro acc h; exact h
  | cons e rest ih =>
    intro acc h
    exact ih _ (tableWF_loadFieldsAux e.2 acc e.1 h)

theorem tkeys_loadFieldsAux_subset : ∀ (fs : Fields) (acc : Table) (q q' : String),
    q' ∈ tkeys (fs.foldl (fun a kv => tset a q (fset (tget a q) kv.1 kv.2)) acc) →
    q' ∈ tkeys acc ∨ q' = q := by
  intro fs
  induction fs with
  | nil => intro acc q q' h; exact Or.inl h
  | cons kv rest ih =>
    intro acc q q' h
    rcases ih _ q q' h with h' | h'
    · rcases (mem_tkeys_tset acc q q' _).mp h' with h'' | h''
      · exact Or.inl h''
      · exact Or.inr h''
    · exact Or.inr h'

theorem tkeys_loadTable_subset (entries : Table) :
    ∀ q ∈ tkeys (loadTable entries), q ∈ tkeys entries := by
  unfold loadTable
  suffices h : ∀ (es : Table) (acc : Table) (q : String),
      q ∈ tkeys (es.foldl (fun acc e =>
        e.2.foldl (fun a kv => tset a e.1 (fset (tget a e.1) kv.1 kv.2)) acc) acc) →
      q ∈ tkeys acc ∨ q ∈ tkeys es by
    intro q hq
    rcases h entries [] q hq with h' | h'
    · simp [tkeys] at h'
    · exact h'
  intro es
  induction es with
  | nil => intro acc q h; exact Or.inl h
  | cons e rest ih =>
    intro acc q h
    rcases ih _ q h with h' | h'
    · rcases tkeys_loadFieldsAux_subset e.2 acc e.1 q h' with h'' | h''
      · exact Or.inl h''
      · exact Or.inr (show q ∈ e.1 :: tkeys rest from by rw [h'']; exact List.mem_cons_self _ _)
    · exact Or.inr (List.mem_cons_of_mem _ h')

theorem tableWF_take {t : Table} (ht : TableWF t) (k : Nat) : TableWF (t.take k) :=
  ⟨List.Nodup.sublist (List.Sublist.map _ (List.take_sublist k t)) ht.1,
   fun e he => ht.2 e (List.take_subset k t he)⟩

theorem tkeys_take_subset (t : Table) (k : Nat) :
    ∀ q ∈ tkeys (t.take k), q ∈ tkeys t := by
  intro q hq
  rw [tkeys, List.mem_map] at hq
  obtain ⟨e, he, hq'⟩ := hq
  exact hq' ▸ List.mem_map.mpr ⟨e, List.take_subset k t he, rfl⟩

theorem tableNonneg_of_subset {t s : Table} (hsub : s ⊆ t)
    (hndt : (t.map Prod.fst).Nodup) (h : TableNonneg t) : TableNonneg s := by
  intro p l
  by_cases hp : p ∈ tkeys s
  · have he := mem_of_tkeys hp
    have htg : tget t p = tget s p := tget_of_mem hndt (hsub he)
    have := h p l
    unfold tgetc at this ⊢
    rw [← htg]
    exact this
  · rw [tgetc_eq_zero_of_not_mem hp]

/-! ## Lemmas about `_handle_redis_reconnection` -/

theorem reconnLoop_attempts_le : ∀ (outcomes : List Bool) (delay : Nat),
    (reconnLoop outcomes delay).attempts ≤ outcomes.length := by
  intro outcomes
  induction outcomes with
  | nil => intro delay; simp [reconnLoop]
  | cons ok rest ih =>
    intro delay
    cases ok
    · simp only [reconnLoop, Bool.false_eq_true, if_false, List.length_cons]
      exact Nat.succ_le_succ (ih _)
    · simp [reconnLoop]

theorem reconnLoop_first_success : ∀ (outcomes : List Bool) (delay k : Nat),
    k < outcomes.length →
    (∀ i, i < k → outcomes.getD i false = false) →
    outcomes.getD k false = true →
    reconnLoop outcomes delay =
      ⟨k + 1, (List.range k).map (fun i => delay * 2 ^ i), true, false⟩ := by
  intro outcomes
  induction outcomes with
  | nil => intro delay k hk _ _; simp at hk
  | cons ok rest ih =>
    intro delay k hk hbefore hsucc
    cases k with
    | zero =>
      have hok : ok = true := by simpa using hsucc
      subst hok
      simp [reconnLoop]
    | succ k' =>
      have hok : ok = false := by
        have := hbefore 0 (Nat.succ_pos k')
        simpa using this
      subst hok
      have hrest := ih (delay * 2) k' (by simpa using hk)
        (fun i hi => by simpa using hbefore (i + 1) (by omega))
        (by simpa using hsucc)
      simp only [reconnLoop, Bool.false_eq_true, if_false]
      rw [hrest]
      have hmap : (List.range (k' + 1)).map (fun i => delay * 2 ^ i) =
          delay :: (List.range k').map (fun i => delay * 2 * 2 ^ i) := by
        rw [List.range_succ_eq_map, List.map_cons, List.map_map]
        have hfun : ((fun i => delay * 2 ^ i) ∘ Nat.succ) =
            (fun i => delay * 2 * 2 ^ i) := by
          funext i
          show delay * 2 ^ (i + 1) = delay * 2 * 2 ^ i
          ring
        rw [hfun]
        norm_num
      rw [hmap]

theorem reconnLoop_all_fail : ∀ (outcomes : List Bool) (delay : Nat),
    (∀ i, i < outcomes.length → outcomes.getD i false = false) →
    reconnLoop outcomes delay =
      ⟨outcomes.length, (List.range outcomes.length).map (fun i => delay * 2 ^ i),
        false, true⟩ := by
  intro outcomes
  induction outcomes with
  | nil => intro delay _; simp [reconnLoop]
  | cons ok rest ih =>
    intro delay hall
    have hok : ok = false := by
      have := hall 0 (by simp)
      simpa using this
    subst hok
    have hrest := ih (delay * 2) (fun i hi => by
      have := hall (i + 1) (by simpa using Nat.succ_lt_succ hi)
      simpa using this)
    simp only [reconnLoop, Bool.false_eq_true, if_false, List.length_cons]
    rw [hrest]
    have hmap : (List.range (rest.length + 1)).map (fun i => delay * 2 ^ i) =
        delay :: (List.range rest.length).map (fun i => delay * 2 * 2 ^ i) := by
      rw [List.range_succ_eq_map, List.map_cons, List.map_map]
      have hfun : ((fun i => delay * 2 ^ i) ∘ Nat.succ) =
          (fun i => delay * 2 * 2 ^ i) := by
        funext i
        show delay * 2 ^ (i + 1) = delay * 2 * 2 ^ i
        ring
      rw [hfun]
      norm_num
    rw [hmap]

/-! ## The whole system and its reachable states -/

/-- The full system state: the in-memory `Analytics` state plus the remote
store contents. -/
structure Sys where
  st : AnalyticsState
  remote : CounterTables
deriving DecidableEq, Repr

/-- A fresh process against an empty remote store. -/
def Sys.start : Sys := ⟨initialState, emptyTables⟩

/-- States reachable from a fresh process and empty remote store.  `tokOK`
constrains the token argument of record events, `failOK` the write index at
which a failed flush stops, and `bootOK` the failure point of bootstrap
(re)loads. -/
inductive Reach (tokOK : Int → Prop) (failOK : Nat → Prop)
    (bootOK : Option BootFail → Prop) : Sys → Prop
  | start : Reach tokOK failOK bootOK Sys.start
  | record {s : Sys} (hs : Reach tokOK failOK bootOK s) (now : UTCTime) {tk : Int}
      (htk : tokOK tk) :
      Reach tokOK failOK bootOK ⟨Analytics.access s.st now tk, s.remote⟩
  | statsRead {s : Sys} (hs : Reach tokOK failOK bootOK s) :
      Reach tokOK failOK bootOK ⟨(Analytics.stats s.st).2, s.remote⟩
  | flushOk {s : Sys} (hs : Reach tokOK failOK bootOK s) :
      Reach tokOK failOK bootOK ⟨(Analytics.syncToRedis s.st s.remote none).state,
        (Analytics.syncToRedis s.st s.remote none).remote⟩
  | flushFail {s : Sys} (hs : Reach tokOK failOK bootOK s) {k : Nat} (hk : failOK k) :
      Reach tokOK failOK bootOK ⟨(Analytics.syncToRedis s.st s.remote (some k)).state,
        (Analytics.syncToRedis s.st s.remote (some k)).remote⟩
  | boot {s : Sys} (hs : Reach tokOK failOK bootOK s) {failAt : Option BootFail}
      (hb : bootOK failAt) :
      Reach tokOK failOK bootOK ⟨(Analytics.syncFromRedis s.remote failAt).1, s.remote⟩

/-- All six tables of the system are well-formed dicts. -/
def SysWF (s : Sys) : Prop :=
  TablesWF s.st.current_totals ∧ TablesWF s.st.new_increments ∧ TablesWF s.remote

/-- Every period key anywhere in the system came from `_get_period_keys`. -/
def SysKeysValid (s : Sys) : Prop :=
  TablesKeysValid s.st.current_totals ∧ TablesKeysValid s.st.new_increments ∧
    TablesKeysValid s.remote

/-- Every cell anywhere in the system is non-negative. -/
def SysNonneg (s : Sys) : Prop :=
  TablesNonneg s.st.current_totals ∧ TablesNonneg s.st.new_increments ∧
    TablesNonneg s.remote

/-- The core consistency equation of the spec:
`remote[k][l] + pendingDelta[k][l] = absoluteTotals[k][l]` for every cell. -/
def consistent (s : Sys) : Prop := ∀ (mt : Metric) (p l : String),
  tgetc (s.remote.tab mt) p l + tgetc (s.st.new_increments.tab mt) p l =
    tgetc (s.st.current_totals.tab mt) p l

/-! ### Reductions of `syncToRedis` and `Analytics.access` -/

theorem syncToRedis_none (s : AnalyticsState) (r : CounterTables) :
    Analytics.syncToRedis s r none =
      ⟨{ s with new_increments := emptyTables },
        (flushWrites s.new_increments).foldl applyWrite r, true⟩ := rfl

theorem syncToRedis_some (s : AnalyticsState) (r : CounterTables) (k : Nat) :
    Analytics.syncToRedis s r (some k) =
      if k < (flushWrites s.new_increments).length then
        ⟨s, ((flushWrites s.new_increments).take k).foldl applyWrite r, false⟩
      else
        ⟨{ s with new_increments := emptyTables },
          (flushWrites s.new_increments).foldl applyWrite r, true⟩ := rfl

theorem access_eq (s : AnalyticsState) (now : UTCTime) (tk : Int) :
    Analytics.access s now tk =
      ⟨⟨bumpAll (Analytics.getPeriodKeys now) s.current_totals.access 1,
        bumpAll (Analytics.getPeriodKeys now) s.current_totals.tokens tk⟩,
       ⟨bumpAll (Analytics.getPeriodKeys now) s.new_increments.access 1,
        bumpAll (Analytics.getPeriodKeys now) s.new_increments.tokens tk⟩⟩ :=
  access_decomp (Analytics.getPeriodKeys now) s tk

theorem syncFromRedis_none (r : CounterTables) :
    Analytics.syncFromRedis r none =
      ({ current_totals := ⟨loadTable r.access, loadTable r.tokens⟩,
         new_increments := emptyTables }, true) := rfl

theorem syncFromRedis_accessAt (r : CounterTables) (k : Nat) :
    Analytics.syncFromRedis r (some (.accessAt k)) =
      if k < r.access.length then
        ({ current_totals := ⟨loadTable (r.access.take k), []⟩,
           new_increments := emptyTables }, false)
      else
        ({ current_totals := ⟨loadTable r.access, loadTable r.tokens⟩,
           new_increments := emptyTables }, true) := rfl

theorem syncFromRedis_tokensAt (r : CounterTables) (k : Nat) :
    Analytics.syncFromRedis r (some (.tokensAt k)) =
      if k < r.tokens.length then
        ({ current_totals := ⟨loadTable r.access, loadTable (r.tokens.take k)⟩,
           new_increments := emptyTables }, false)
      else
        ({ current_totals := ⟨loadTable r.access, loadTable r.tokens⟩,
           new_increments := emptyTables }, true) := rfl

theorem tableWF_nil : TableWF [] := ⟨List.nodup_nil, by simp⟩

theorem tablesWF_empty : TablesWF emptyTables := ⟨tableWF_nil, tableWF_nil⟩

/-- Dict well-formedness holds in every reachable state. -/
theorem reach_wf {tokOK : Int → Prop} {failOK : Nat → Prop}
    {bootOK : Option BootFail → Prop} {s : Sys}
    (h : Reach tokOK failOK bootOK s) : SysWF s := by
  induction h with
  | start => exact ⟨tablesWF_empty, tablesWF_empty, tablesWF_empty⟩
  | record hs now htk ih =>
    obtain ⟨hc, hn, hr⟩ := ih
    refine ⟨?_, ?_, hr⟩
    · show TablesWF (Analytics.access _ _ _).current_totals
      rw [access_eq]
      exact ⟨tableWF_bumpAll _ hc.1 1, tableWF_bumpAll _ hc.2 _⟩
    · show TablesWF (Analytics.access _ _ _).new_increments
      rw [access_eq]
      exact ⟨tableWF_bumpAll _ hn.1 1, tableWF_bumpAll _ hn.2 _⟩
  | statsRead hs ih => exact ih
  | flushOk hs ih =>
    obtain ⟨hc, hn, hr⟩ := ih
    exact ⟨hc, tablesWF_empty, tablesWF_foldl_applyWrite _ hr⟩
  | flushFail hs hk ih =>
    obtain ⟨hc, hn, hr⟩ := ih
    rename_i s' k
    by_cases hlen : k < (flushWrites s'.st.new_increments).length
    · simp only [syncToRedis_some, if_pos hlen]
      exact ⟨hc, hn, tablesWF_foldl_applyWrite _ hr⟩
    · simp only [syncToRedis_some, if_neg hlen]
      exact ⟨hc, tablesWF_empty, tablesWF_foldl_applyWrite _ hr⟩
  | boot hs hb ih =>
    obtain ⟨hc, hn, hr⟩ := ih
    rename_i s' failAt
    match failAt with
    | none =>
      simp only [syncFromRedis_none]
      exact ⟨⟨tableWF_loadTable _, tableWF_loadTable _⟩, tablesWF_empty, hr⟩
    | some (.accessAt k) =>
      simp only [syncFromRedis_accessAt]
      split
      · exact ⟨⟨tableWF_loadTable _, tableWF_nil⟩, tablesWF_empty, hr⟩
      · exact ⟨⟨tableWF_loadTable _, tableWF_loadTable _⟩, tablesWF_empty, hr⟩
    | some (.tokensAt k) =>
      simp only [syncFromRedis_tokensAt]
      split
      · exact ⟨⟨tableWF_loadTable _, tableWF_loadTable _⟩, tablesWF_empty, hr⟩
      · exact ⟨⟨tableWF_loadTable _, tableWF_loadTable _⟩, tablesWF_empty, hr⟩

theorem tableNonneg_nil : TableNonneg [] := fun _ _ => le_refl 0

theorem tablesNonneg_empty : TablesNonneg emptyTables := ⟨tableNonneg_nil, tableNonneg_nil⟩

theorem tablesNonneg_tab {c : CounterTables} (h : TablesNonneg c) (mt : Metric) :
    TableNonneg (c.tab mt) := by
  cases mt
  · exact h.1
  · exact h.2

theorem tablesWF_tab {c : CounterTables} (h : TablesWF c) (mt : Metric) :
    TableWF (c.tab mt) := by
  cases mt
  · exact h.1
  · exact h.2

theorem tablesKeysValid_tab {c : CounterTables} (h : TablesKeysValid c) (mt : Metric) :
    TableKeysValid (c.tab mt) := by
  cases mt
  · exact h.1
  · exact h.2

theorem tableNonneg_loadTable {t : Table} (ht : TableWF t) (h : TableNonneg t) :
    TableNonneg (loadTable t) := fun p l => by
  rw [tgetc_loadTable ht]
  exact h p l

theorem tableNonneg_take {t : Table} (ht : TableWF t) (h : TableNonneg t) (k : Nat) :
    TableNonneg (t.take k) :=
  tableNonneg_of_subset (List.take_subset k t) ht.1 h

theorem flushWrites_val_nonneg {inc : CounterTables} (hWF : TablesWF inc)
    (hnn : TablesNonneg inc) : ∀ w ∈ flushWrites inc, 0 ≤ writeVal w := by
  intro w hw
  obtain ⟨mt, p, l, v⟩ := w
  have := (mem_flushWrites_iff hWF mt p l v).mp hw
  have hv : v = tgetc (inc.tab mt) p l := this.1.symm
  rw [show writeVal (mt, p, l, v) = v from rfl, hv]
  exact tablesNonneg_tab hnn mt p l

/-- Given non-negative token counts, every counter cell in every reachable
state is non-negative. -/
theorem reach_nonneg {tokOK : Int → Prop} {failOK : Nat → Prop}
    {bootOK : Option BootFail → Prop} {s : Sys}
    (htok : ∀ tk, tokOK tk → 0 ≤ tk)
    (h : Reach tokOK failOK bootOK s) : SysNonneg s := by
  induction h with
  | start => exact ⟨tablesNonneg_empty, tablesNonneg_empty, tablesNonneg_empty⟩
  | record hs now htk ih =>
    obtain ⟨hc, hn, hr⟩ := ih
    refine ⟨?_, ?_, hr⟩
    · show TablesNonneg (Analytics.access _ _ _).current_totals
      rw [access_eq]
      exact ⟨tableNonneg_bumpAll _ hc.1 (by norm_num),
        tableNonneg_bumpAll _ hc.2 (htok _ htk)⟩
    · show TablesNonneg (Analytics.access _ _ _).new_increments
      rw [access_eq]
      exact ⟨tableNonneg_bumpAll _ hn.1 (by norm_num),
        tableNonneg_bumpAll _ hn.2 (htok _ htk)⟩
  | statsRead hs ih => exact ih
  | flushOk hs ih =>
    obtain ⟨hc, hn, hr⟩ := ih
    have hWF := (reach_wf hs).2.1
    exact ⟨hc, tablesNonneg_empty,
      tablesNonneg_foldl_applyWrite _ hr (flushWrites_val_nonneg hWF hn)⟩
  | flushFail hs hk ih =>
    obtain ⟨hc, hn, hr⟩ := ih
    have hWF := (reach_wf hs).2.1
    rename_i s' k
    by_cases hlen : k < (flushWrites s'.st.new_increments).length
    · simp only [syncToRedis_some, if_pos hlen]
      refine ⟨hc, hn, tablesNonneg_foldl_applyWrite _ hr ?_⟩
      intro w hw
      exact flushWrites_val_nonneg hWF hn w (List.take_subset k _ hw)
    · simp only [syncToRedis_some, if_neg hlen]
      exact ⟨hc, tablesNonneg_empty,
        tablesNonneg_foldl_applyWrite _ hr (flushWrites_val_nonneg hWF hn)⟩
  | boot hs hb ih =>
    obtain ⟨hc, hn, hr⟩ := ih
    have hWFr := (reach_wf hs).2.2
    rename_i s' failAt
    match failAt with
    | none =>
      simp only [syncFromRedis_none]
      exact ⟨⟨tableNonneg_loadTable hWFr.1 hr.1, tableNonneg_loadTable hWFr.2 hr.2⟩,
        tablesNonneg_empty, hr⟩
    | some (.accessAt k) =>
      simp only [syncFromRedis_accessAt]
      split
      · exact ⟨⟨tableNonneg_loadTable (tableWF_take hWFr.1 k)
            (tableNonneg_take hWFr.1 hr.1 k), tableNonneg_nil⟩,
          tablesNonneg_empty, hr⟩
      · exact ⟨⟨tableNonneg_loadTable hWFr.1 hr.1, tableNonneg_loadTable hWFr.2 hr.2⟩,
          tablesNonneg_empty, hr⟩
    | some (.tokensAt k) =>
      simp only [syncFromRedis_tokensAt]
      split
      · exact ⟨⟨tableNonneg_loadTable hWFr.1 hr.1,
          tableNonneg_loadTable (tableWF_take hWFr.2 k) (tableNonneg_take hWFr.2 hr.2 k)⟩,
          tablesNonneg_empty, hr⟩
      · exact ⟨⟨tableNonneg_loadTable hWFr.1 hr.1, tableNonneg_loadTable hWFr.2 hr.2⟩,
          tablesNonneg_empty, hr⟩

theorem tableKeysValid_nil : TableKeysValid [] := fun p hp => absurd hp (by simp [tkeys])

theorem tablesKeysValid_empty : TablesKeysValid emptyTables :=
  ⟨tableKeysValid_nil, tableKeysValid_nil⟩

theorem tableKeysValid_loadTable {t : Table} (h : TableKeysValid t) :
    TableKeysValid (loadTable t) :=
  fun q hq => h q (tkeys_loadTable_subset t q hq)

theorem tableKeysValid_take {t : Table} (h : TableKeysValid t) (k : Nat) :
    TableKeysValid (t.take k) :=
  fun q hq => h q (tkeys_take_subset t k q hq)

theorem flushWrites_period_valid {inc : CounterTables} (h : TablesKeysValid inc) :
    ∀ w ∈ flushWrites inc, ValidPeriod w.2.1 := by
  intro w hw
  exact tablesKeysValid_tab h w.1 w.2.1 (mem_flushWrites_period hw)

/-- Every period key in every reachable state is "total" or a date-derived
key from `_get_period_keys`. -/
theorem reach_keys {tokOK : Int → Prop} {failOK : Nat → Prop}
    {bootOK : Option BootFail → Prop} {s : Sys}
    (h : Reach tokOK failOK bootOK s) : SysKeysValid s := by
  induction h with
  | start => exact ⟨tablesKeysValid_empty, tablesKeysValid_empty, tablesKeysValid_empty⟩
  | record hs now htk ih =>
    obtain ⟨hc, hn, hr⟩ := ih
    have hkeys : ∀ p ∈ Analytics.getPeriodKeys now, ValidPeriod p :=
      fun p hp => validPeriod_of_mem_getPeriodKeys hp
    refine ⟨?_, ?_, hr⟩
    · show TablesKeysValid (Analytics.access _ _ _).current_totals
      rw [access_eq]
      exact ⟨tableKeysValid_bumpAll _ hc.1 hkeys 1,
        tableKeysValid_bumpAll _ hc.2 hkeys _⟩
    · show TablesKeysValid (Analytics.access _ _ _).new_increments
      rw [access_eq]
      exact ⟨tableKeysValid_bumpAll _ hn.1 hkeys 1,
        tableKeysValid_bumpAll _ hn.2 hkeys _⟩
  | statsRead hs ih => exact ih
  | flushOk hs ih =>
    obtain ⟨hc, hn, hr⟩ := ih
    exact ⟨hc, tablesKeysValid_empty,
      tablesKeysValid_foldl_applyWrite _ hr (flushWrites_period_valid hn)⟩
  | flushFail hs hk ih =>
    obtain ⟨hc, hn, hr⟩ := ih
    rename_i s' k
    by_cases hlen : k < (flushWrites s'.st.new_increments).length
    · simp only [syncToRedis_some, if_pos hlen]
      refine ⟨hc, hn, tablesKeysValid_foldl_applyWrite _ hr ?_⟩
      intro w hw
      exact flushWrites_period_valid hn w (List.take_subset k _ hw)
    · simp only [syncToRedis_some, if_neg hlen]
      exact ⟨hc, tablesKeysValid_empty,
        tablesKeysValid_foldl_applyWrite _ hr (flushWrites_period_valid hn)⟩
  | boot hs hb ih =>
    obtain ⟨hc, hn, hr⟩ := ih
    rename_i s' failAt
    match failAt with
    | none =>
      simp only [syncFromRedis_none]
      exact ⟨⟨tableKeysValid_loadTable hr.1, tableKeysValid_loadTable hr.2⟩,
        tablesKeysValid_empty, hr⟩
    | some (.accessAt k) =>
      simp only [syncFromRedis_accessAt]
      split
      · exact ⟨⟨tableKeysValid_loadTable (tableKeysValid_take hr.1 k), tableKeysValid_nil⟩,
          tablesKeysValid_empty, hr⟩
      · exact ⟨⟨tableKeysValid_loadTable hr.1, tableKeysValid_loadTable hr.2⟩,
          tablesKeysValid_empty, hr⟩
    | some (.tokensAt k) =>
      simp only [syncFromRedis_tokensAt]
      split
      · exact ⟨⟨tableKeysValid_loadTable hr.1,
          tableKeysValid_loadTable (tableKeysValid_take hr.2 k)⟩,
          tablesKeysValid_empty, hr⟩
      · exact ⟨⟨tableKeysValid_loadTable hr.1, tableKeysValid_loadTable hr.2⟩,
          tablesKeysValid_empty, hr⟩

theorem tgetc_emptyTables (mt : Metric) (p l : String) :
    tgetc (emptyTables.tab mt) p l = 0 := by
  cases mt <;> rfl

/-- The consistency equation holds in every state reachable without partial
failures: flushes either succeed or fail before the first write, and
bootstraps complete. -/
theorem reach_consistent {tokOK : Int → Prop} {s : Sys}
    (h : Reach tokOK (fun k => k = 0) (fun b => b = none) s) : consistent s := by
  induction h with
  | start =>
    intro mt p l
    rw [show tgetc (Sys.start.remote.tab mt) p l = 0 from by cases mt <;> rfl,
      show tgetc (Sys.start.st.new_increments.tab mt) p l = 0 from by cases mt <;> rfl,
      show tgetc (Sys.start.st.current_totals.tab mt) p l = 0 from by cases mt <;> rfl]
    norm_num
  | record hs now htk ih =>
    rename_i s0 tk
    intro mt p l
    have hnd := getPeriodKeys_nodup now
    have hprev := ih mt p l
    cases mt
    · show tgetc s0.remote.access p l +
          tgetc (Analytics.access s0.st now tk).new_increments.access p l =
          tgetc (Analytics.access s0.st now tk).current_totals.access p l
      rw [access_eq]
      show tgetc s0.remote.access p l +
          tgetc (bumpAll (Analytics.getPeriodKeys now) s0.st.new_increments.access 1) p l =
          tgetc (bumpAll (Analytics.getPeriodKeys now) s0.st.current_totals.access 1) p l
      rw [tgetc_bumpAll _ _ _ _ _ hnd, tgetc_bumpAll _ _ _ _ _ hnd]
      have hprev' : tgetc s0.remote.access p l + tgetc s0.st.new_increments.access p l =
          tgetc s0.st.current_totals.access p l := hprev
      omega
    · show tgetc s0.remote.tokens p l +
          tgetc (Analytics.access s0.st now tk).new_increments.tokens p l =
          tgetc (Analytics.access s0.st now tk).current_totals.tokens p l
      rw [access_eq]
      show tgetc s0.remote.tokens p l +
          tgetc (bumpAll (Analytics.getPeriodKeys now) s0.st.new_increments.tokens tk) p l =
          tgetc (bumpAll (Analytics.getPeriodKeys now) s0.st.current_totals.tokens tk) p l
      rw [tgetc_bumpAll _ _ _ _ _ hnd, tgetc_bumpAll _ _ _ _ _ hnd]
      have hprev' : tgetc s0.remote.tokens p l + tgetc s0.st.new_increments.tokens p l =
          tgetc s0.st.current_totals.tokens p l := hprev
      omega
  | statsRead hs ih => exact ih
  | flushOk hs ih =>
    rename_i s0
    intro mt p l
    have hWF := (reach_wf hs).2.1
    have hprev := ih mt p l
    show tgetc (((flushWrites s0.st.new_increments).foldl applyWrite s0.remote).tab mt) p l +
        tgetc (emptyTables.tab mt) p l = tgetc (s0.st.current_totals.tab mt) p l
    rw [tgetc_foldl_applyWrite, sumAtW_flushWrites hWF, tgetc_emptyTables]
    omega
  | flushFail hs hk ih =>
    rename_i s' k
    subst hk
    intro mt p l
    have hprev := ih mt p l
    by_cases hlen : 0 < (flushWrites s'.st.new_increments).length
    · simp only [syncToRedis_some, if_pos hlen, List.take_zero]
      show tgetc ((List.foldl applyWrite s'.remote []).tab mt) p l +
        tgetc (s'.st.new_increments.tab mt) p l = tgetc (s'.st.current_totals.tab mt) p l
      exact hprev
    · simp only [syncToRedis_some, if_neg hlen]
      have hWF := (reach_wf hs).2.1
      show tgetc (((flushWrites s'.st.new_increments).foldl applyWrite s'.remote).tab mt) p l +
          tgetc (emptyTables.tab mt) p l = tgetc (s'.st.current_totals.tab mt) p l
      rw [tgetc_foldl_applyWrite, sumAtW_flushWrites hWF, tgetc_emptyTables]
      omega
  | boot hs hb ih =>
    rename_i s' failAt
    subst hb
    intro mt p l
    have hWFr := (reach_wf hs).2.2
    simp only [syncFromRedis_none]
    cases mt
    · show tgetc s'.remote.access p l + tgetc (emptyTables.tab Metric.access) p l =
        tgetc (loadTable s'.remote.access) p l
      rw [tgetc_loadTable hWFr.1, tgetc_emptyTables]
      omega
    · show tgetc s'.remote.tokens p l + tgetc (emptyTables.tab Metric.tokens) p l =
        tgetc (loadTable s'.remote.tokens) p l
      rw [tgetc_loadTable hWFr.2, tgetc_emptyTables]
      omega

/-! ## Decidability of the well-formedness predicates (for concrete witnesses) -/

instance (f : Fields) : Decidable (FieldsWF f) :=
  inferInstanceAs (Decidable ((f.map Prod.fst).Nodup))

instance (t : Table) : Decidable (TableWF t) :=
  inferInstanceAs (Decidable ((t.map Prod.fst).Nodup ∧ ∀ e ∈ t, FieldsWF e.2))

instance (c : CounterTables) : Decidable (TablesWF c) :=
  inferInstanceAs (Decidable (TableWF c.access ∧ TableWF c.tokens))

/-! ## Concrete system states used by witnesses and counterexamples -/

/-- A fixed UTC instant (the docstring example date). -/
def d0 : UTCTime := ⟨2025, 1, 14, 12, 0, 0⟩

/-- A fresh state after one `access(1)` event at `d0`. -/
def s1 : AnalyticsState := Analytics.access initialState d0 1

/-- The system after recording one event, before any flush. -/
def sysR : Sys := ⟨s1, emptyTables⟩

/-- The system after that record and a flush that fails at the second
HINCRBY call: the first increment reached the remote store, the local delta
was kept. -/
def sysBad : Sys := ⟨(Analytics.syncToRedis s1 emptyTables (some 1)).state,
  (Analytics.syncToRedis s1 emptyTables (some 1)).remote⟩

/-- The system after that record and a fully successful flush. -/
def sysW : Sys := ⟨(Analytics.syncToRedis s1 emptyTables none).state,
  (Analytics.syncToRedis s1 emptyTables none).remote⟩

/-- The system after the record and then a (successful) bootstrap reload from
the still-empty remote store, which wipes the unflushed counts. -/
def sysRBoot : Sys := ⟨(Analytics.syncFromRedis sysR.remote none).1, sysR.remote⟩

/-- The scenario state: three events with token counts 10, 20, 5 on one UTC day. -/
def s3 : AnalyticsState :=
  Analytics.access (Analytics.access (Analytics.access initialState d0 10) d0 20) d0 5

/-- A remote store holding one access hash and one tokens hash. -/
def remote0 : CounterTables :=
  ⟨[("total", [("docsifer", 5)])], [("total", [("docsifer", 7)])]⟩

/-! ## Claim C1 -/

/-- Claim C1 (amended): the core consistency invariant
`remote[k][l] + pendingDelta[k][l] = absoluteTotals[k][l]` holds, for every
cell, in every state reachable by records, snapshots, successful flushes,
flushes that fail before applying any remote increment, and successful
bootstraps.  (A flush or bootstrap that fails part-way breaks the equation;
see the counterexample.) -/
theorem analytics_C1_invariant (sys : Sys)
    (h : Reach (fun _ => True) (fun k => k = 0) (fun b => b = none) sys) :
    consistent sys :=
  reach_consistent h

theorem analytics_C1_witness : consistent sysW :=
  analytics_C1_invariant sysW (Reach.flushOk (Reach.record Reach.start d0 trivial))

/-- Claim C1 as frozen is false: after a reachable failed flush that applied
its first increment before failing (no flush in flight any more), the remote
value plus the pending delta exceeds the absolute total for that cell. -/
theorem analytics_C1_counterexample :
    Reach (fun _ => True) (fun _ => True) (fun _ => True) sysBad ∧
    tgetc (sysBad.remote.tab Metric.access) "2025-01-14" "docsifer" +
        tgetc (sysBad.st.new_increments.tab Metric.access) "2025-01-14" "docsifer" = 2 ∧
    tgetc (sysBad.st.current_totals.tab Metric.access) "2025-01-14" "docsifer" = 1 ∧
    ¬ consistent sysBad := by
  refine ⟨Reach.flushFail (Reach.record Reach.start d0 trivial) trivial, ?_, ?_, ?_⟩
  · decide
  · decide
  · intro h
    have := h Metric.access "2025-01-14" "docsifer"
    revert this
    decide

/-! ## Claim C2 -/

/-- Claim C2 (amended): if the HINCRBY call at index `k` fails during a flush,
the whole flush is treated as failed (`ok = false`, the remaining calls are
skipped), control passes to the reconnection manager, and the local state is
left untouched: `new_increments` still holds the full pre-flush delta (the
delta is retained, not dropped) and `current_totals` is unchanged (never
decremented). -/
theorem analytics_C2_flush_failure (s : AnalyticsState) (r : CounterTables) (k : Nat)
    (hk : k < (flushWrites s.new_increments).length) :
    (Analytics.syncToRedis s r (some k)).ok = false ∧
    (Analytics.syncToRedis s r (some k)).state.new_increments = s.new_increments ∧
    (Analytics.syncToRedis s r (some k)).state.current_totals = s.current_totals ∧
    (Analytics.syncToRedis s r (some k)).remote =
      ((flushWrites s.new_increments).take k).foldl applyWrite r ∧
    (Analytics.syncCycle s r (some k)).reconnectInvoked = true := by
  simp only [Analytics.syncCycle, syncToRedis_some, if_pos hk]
  exact ⟨trivial, trivial, trivial, trivial, rfl⟩

theorem analytics_C2_witness :
    0 < (flushWrites s1.new_increments).length ∧
    ((Analytics.syncToRedis s1 emptyTables (some 0)).ok = false ∧
      (Analytics.syncToRedis s1 emptyTables (some 0)).state.new_increments =
        s1.new_increments ∧
      (Analytics.syncToRedis s1 emptyTables (some 0)).state.current_totals =
        s1.current_totals ∧
      (Analytics.syncToRedis s1 emptyTables (some 0)).remote =
        ((flushWrites s1.new_increments).take 0).foldl applyWrite emptyTables ∧
      (Analytics.syncCycle s1 emptyTables (some 0)).reconnectInvoked = true) :=
  ⟨by decide, analytics_C2_flush_failure s1 emptyTables 0 (by decide)⟩

/-- Claim C2 as frozen is false: after a failed flush the drained delta IS
still present in `new_increments` (nothing is dropped); here the pre-flush
delta survives the failure cell for cell. -/
theorem analytics_C2_counterexample :
    (Analytics.syncToRedis s1 emptyTables (some 0)).ok = false ∧
    (Analytics.syncToRedis s1 emptyTables (some 0)).state.new_increments =
      s1.new_increments ∧
    tgetc (Analytics.syncToRedis s1 emptyTables (some 0)).state.new_increments.access
      "total" "docsifer" = 1 := by
  refine ⟨by decide, by decide, by decide⟩

/-! ## Claim C3 -/

/-- Claim C3: after a flush in which every remote call succeeds,
`new_increments` is zero in every cell; the flush issues exactly one
increment-by call per cell with non-zero pending delta, carrying exactly the
pre-flush value (zero cells are skipped), so each remote cell grows by exactly
the pre-flush pending delta. -/
theorem analytics_C3_flush_success (s : AnalyticsState) (r : CounterTables)
    (hWF : TablesWF s.new_increments) :
    (Analytics.syncToRedis s r none).ok = true ∧
    (∀ (mt : Metric) (p l : String),
      tgetc ((Analytics.syncToRedis s r none).state.new_increments.tab mt) p l = 0) ∧
    (∀ (mt : Metric) (p l : String) (v : Int),
      (mt, p, l, v) ∈ flushWrites s.new_increments ↔
        tgetc (s.new_increments.tab mt) p l = v ∧ v ≠ 0) ∧
    ((flushWrites s.new_increments).map writeCell).Nodup ∧
    (∀ (mt : Metric) (p l : String),
      tgetc ((Analytics.syncToRedis s r none).remote.tab mt) p l =
        tgetc (r.tab mt) p l + tgetc (s.new_increments.tab mt) p l) := by
  refine ⟨rfl, ?_, ?_, flushWrites_cells_nodup hWF, ?_⟩
  · intro mt p l
    exact tgetc_emptyTables mt p l
  · intro mt p l v
    exact mem_flushWrites_iff hWF mt p l v
  · intro mt p l
    show tgetc (((flushWrites s.new_increments).foldl applyWrite r).tab mt) p l = _
    rw [tgetc_foldl_applyWrite, sumAtW_flushWrites hWF]

theorem analytics_C3_witness :
    TablesWF s1.new_increments ∧
    tgetc ((Analytics.syncToRedis s1 emptyTables none).state.new_increments.tab
      Metric.tokens) "total" "docsifer" = 0 ∧
    tgetc ((Analytics.syncToRedis s1 emptyTables none).remote.tab Metric.tokens)
      "total" "docsifer" =
      tgetc (emptyTables.tab Metric.tokens) "total" "docsifer" +
        tgetc (s1.new_increments.tab Metric.tokens) "total" "docsifer" :=
  ⟨by decide,
   (analytics_C3_flush_success s1 emptyTables (by decide)).2.1 Metric.tokens "total" "docsifer",
   (analytics_C3_flush_success s1 emptyTables (by decide)).2.2.2.2 Metric.tokens "total" "docsifer"⟩

/-! ## Claim C4 -/

/-- Claim C4: every `access(tokens)` call updates exactly the five bucket keys
derived from the event's timestamp (which are pairwise distinct), in both
metrics and both tables, adding 1 to each access cell and `tokens` to each
tokens cell of the label "docsifer"; every other cell is untouched.  And in
the concrete scenario — three events with token counts 10, 20, 5 on one UTC
day from the empty state — the snapshot shows `tokens.total.docsifer = 35`
and `access.<day-key>.docsifer = 3`. -/
theorem analytics_C4_record (s : AnalyticsState) (now : UTCTime) (tk : Int) :
    (∀ p ∈ Analytics.getPeriodKeys now,
      tgetc (Analytics.access s now tk).current_totals.access p "docsifer" =
        tgetc s.current_totals.access p "docsifer" + 1 ∧
      tgetc (Analytics.access s now tk).current_totals.tokens p "docsifer" =
        tgetc s.current_totals.tokens p "docsifer" + tk ∧
      tgetc (Analytics.access s now tk).new_increments.access p "docsifer" =
        tgetc s.new_increments.access p "docsifer" + 1 ∧
      tgetc (Analytics.access s now tk).new_increments.tokens p "docsifer" =
        tgetc s.new_increments.tokens p "docsifer" + tk) ∧
    (∀ p l : String, p ∉ Analytics.getPeriodKeys now ∨ l ≠ "docsifer" →
      tgetc (Analytics.access s now tk).current_totals.access p l =
        tgetc s.current_totals.access p l ∧
      tgetc (Analytics.access s now tk).current_totals.tokens p l =
        tgetc s.current_totals.tokens p l ∧
      tgetc (Analytics.access s now tk).new_increments.access p l =
        tgetc s.new_increments.access p l ∧
      tgetc (Analytics.access s now tk).new_increments.tokens p l =
        tgetc s.new_increments.tokens p l) ∧
    (Analytics.getPeriodKeys now).length = 5 ∧
    (Analytics.getPeriodKeys now).Nodup ∧
    (tgetc ((Analytics.stats s3).1.tokens) "total" "docsifer" = 35 ∧
      tgetc ((Analytics.stats s3).1.access) (dayKey d0) "docsifer" = 3) := by
  have hnd := getPeriodKeys_nodup now
  refine ⟨?_, ?_, rfl, hnd, by decide, by decide⟩
  · intro p hp
    rw [access_eq]
    refine ⟨?_, ?_, ?_, ?_⟩ <;>
      · show tgetc (bumpAll (Analytics.getPeriodKeys now) _ _) p "docsifer" = _
        rw [tgetc_bumpAll _ _ _ _ _ hnd, if_pos ⟨hp, rfl⟩]
  · intro p l hpl
    have hcond : ¬ (p ∈ Analytics.getPeriodKeys now ∧ l = "docsifer") := by
      rcases hpl with h | h
      · exact fun hc => h hc.1
      · exact fun hc => h hc.2
    rw [access_eq]
    refine ⟨?_, ?_, ?_, ?_⟩ <;>
      · show tgetc (bumpAll (Analytics.getPeriodKeys now) _ _) p l = _
        rw [tgetc_bumpAll _ _ _ _ _ hnd, if_neg hcond]
        ring

theorem analytics_C4_witness :
    ("total" ∈ Analytics.getPeriodKeys d0) ∧
    tgetc (Analytics.access initialState d0 7).current_totals.access "total" "docsifer" =
      tgetc initialState.current_totals.access "total" "docsifer" + 1 ∧
    tgetc (Analytics.access initialState d0 7).current_totals.tokens "total" "docsifer" =
      tgetc initialState.current_totals.tokens "total" "docsifer" + 7 :=
  ⟨by decide,
   ((analytics_C4_record initialState d0 7).1 "total" (by decide)).1,
   ((analytics_C4_record initialState d0 7).1 "total" (by decide)).2.1⟩

/-! ## Claim C5 -/

/-- Claim C5 (amended): given non-negative token inputs, every
`absoluteTotals` cell is non-negative in every reachable state, and never
decreases across `record`, any flush (successful or failed — flushes do not
touch `current_totals` at all), or `stats`.  (A bootstrap reload replaces
`absoluteTotals` wholesale with the remote contents and can decrease cells
that held unflushed local records; see the counterexample.) -/
theorem analytics_C5_monotonic :
    (∀ sys : Sys, Reach (fun tk => 0 ≤ tk) (fun _ => True) (fun _ => True) sys →
      ∀ (mt : Metric) (p l : String), 0 ≤ tgetc (sys.st.current_totals.tab mt) p l) ∧
    (∀ (s : AnalyticsState) (now : UTCTime) (tk : Int), 0 ≤ tk →
      ∀ (mt : Metric) (p l : String),
      tgetc (s.current_totals.tab mt) p l ≤
        tgetc ((Analytics.access s now tk).current_totals.tab mt) p l) ∧
    (∀ (s : AnalyticsState) (r : CounterTables) (failAt : Option Nat),
      (Analytics.syncToRedis s r failAt).state.current_totals = s.current_totals) ∧
    (∀ s : AnalyticsState, (Analytics.stats s).2.current_totals = s.current_totals) := by
  refine ⟨?_, ?_, ?_, fun s => rfl⟩
  · intro sys h mt p l
    exact tablesNonneg_tab (reach_nonneg (fun tk htk => htk) h).1 mt p l
  · intro s now tk htk mt p l
    have hnd := getPeriodKeys_nodup now
    cases mt
    · show tgetc s.current_totals.access p l ≤
        tgetc (Analytics.access s now tk).current_totals.access p l
      rw [access_eq]
      show _ ≤ tgetc (bumpAll (Analytics.getPeriodKeys now) s.current_totals.access 1) p l
      rw [tgetc_bumpAll _ _ _ _ _ hnd]
      split <;> omega
    · show tgetc s.current_totals.tokens p l ≤
        tgetc (Analytics.access s now tk).current_totals.tokens p l
      rw [access_eq]
      show _ ≤ tgetc (bumpAll (Analytics.getPeriodKeys now) s.current_totals.tokens tk) p l
      rw [tgetc_bumpAll _ _ _ _ _ hnd]
      split <;> omega
  · intro s r failAt
    cases failAt with
    | none => rfl
    | some k =>
      simp only [syncToRedis_some]
      split <;> rfl

theorem analytics_C5_witness :
    0 ≤ tgetc (sysR.st.current_totals.tab Metric.access) "total" "docsifer" ∧
    0 ≤ (1 : Int) ∧
    tgetc (initialState.current_totals.tab Metric.tokens) "total" "docsifer" ≤
      tgetc ((Analytics.access initialState d0 1).current_totals.tab Metric.tokens)
        "total" "docsifer" :=
  ⟨analytics_C5_monotonic.1 sysR (Reach.record Reach.start d0 (by norm_num))
      Metric.access "total" "docsifer",
   by norm_num,
   analytics_C5_monotonic.2.1 initialState d0 1 (by norm_num) Metric.tokens
     "total" "docsifer"⟩

/-- Claim C5 as frozen is false: the bootstrap reload is an operation of the
system, and when it runs after an unflushed record against an empty remote
store it decreases `absoluteTotals` (here `access.total.docsifer` drops from
1 to 0). -/
theorem analytics_C5_counterexample :
    Reach (fun tk => 0 ≤ tk) (fun _ => True) (fun _ => True) sysR ∧
    Reach (fun tk => 0 ≤ tk) (fun _ => True) (fun _ => True) sysRBoot ∧
    tgetc (sysR.st.current_totals.tab Metric.access) "total" "docsifer" = 1 ∧
    tgetc (sysRBoot.st.current_totals.tab Metric.access) "total" "docsifer" = 0 := by
  have hR : Reach (fun tk => (0 : Int) ≤ tk) (fun _ => True) (fun _ => True) sysR :=
    Reach.record Reach.start d0 (by norm_num)
  exact ⟨hR, Reach.boot hR trivial, by decide, by decide⟩

/-! ## Claim C6 -/

/-- Claim C6: `_get_period_keys` is a pure function of the UTC date — two
timestamps with the same calendar day get identical keys, same month the same
month key, same year the same year key, and same (year, `%U` week ordinal)
the same week key — and the week key encodes the year: timestamps in
different years always get distinct week keys, whatever their week-of-year
ordinals are (so Dec 31 and Jan 1 can never alias). -/
theorem analytics_C6_period_keys :
    (∀ t1 t2 : UTCTime, t1.year = t2.year → t1.month = t2.month → t1.day = t2.day →
      Analytics.getPeriodKeys t1 = Analytics.getPeriodKeys t2) ∧
    (∀ t1 t2 : UTCTime, t1.year = t2.year → t1.month = t2.month →
      monthKey t1 = monthKey t2) ∧
    (∀ t1 t2 : UTCTime, t1.year = t2.year → yearKey t1 = yearKey t2) ∧
    (∀ t1 t2 : UTCTime, t1.year = t2.year → weekOfYearU t1 = weekOfYearU t2 →
      weekKey t1.year (weekOfYearU t1) = weekKey t2.year (weekOfYearU t2)) ∧
    (∀ t1 t2 : UTCTime, t1.year ≠ t2.year →
      weekKey t1.year (weekOfYearU t1) ≠ weekKey t2.year (weekOfYearU t2)) := by
  refine ⟨?_, ?_, ?_, ?_, ?_⟩
  · rintro ⟨y1, m1, dd1, h1, mi1, se1⟩ ⟨y2, m2, dd2, h2, mi2, se2⟩ hy hm hd
    simp only at hy hm hd
    subst hy; subst hm; subst hd
    rfl
  · rintro ⟨y1, m1, dd1, h1, mi1, se1⟩ ⟨y2, m2, dd2, h2, mi2, se2⟩ hy hm
    simp only at hy hm
    subst hy; subst hm
    rfl
  · rintro ⟨y1, m1, dd1, h1, mi1, se1⟩ ⟨y2, m2, dd2, h2, mi2, se2⟩ hy
    simp only at hy
    subst hy
    rfl
  · intro t1 t2 hy hw
    rw [hy, hw]
  · intro t1 t2 hne h
    exact hne (weekKey_year_inj h)

/-- Dec 31 and Jan 1 across the 2024/2025 boundary. -/
def dDec31 : UTCTime := ⟨2024, 12, 31, 23, 59, 59⟩

/-- See `dDec31`. -/
def dJan1 : UTCTime := ⟨2025, 1, 1, 0, 0, 0⟩

theorem analytics_C6_witness :
    dDec31.year ≠ dJan1.year ∧
    weekKey dDec31.year (weekOfYearU dDec31) ≠ weekKey dJan1.year (weekOfYearU dJan1) ∧
    weekKey dDec31.year (weekOfYearU dDec31) = "2024-W52" ∧
    weekKey dJan1.year (weekOfYearU dJan1) = "2025-W00" :=
  ⟨by decide, analytics_C6_period_keys.2.2.2.2 dDec31 dJan1 (by decide),
   by decide, by decide⟩

/-! ## Claim C7 -/

/-- Claim C7: the reconnection routine makes at most `max_retries`
close-and-recreate attempts; the sleeps after failed attempts start at 1
second and double each time; the first successful attempt ends the loop
immediately (k failures before it mean exactly k+1 attempts and k sleeps, no
critical log); exhausting all attempts emits the critical log and returns
normally (no retry loop remains). -/
theorem analytics_C7_reconnection (outcomes : List Bool) :
    (Analytics.handleRedisReconnection outcomes).attempts ≤ outcomes.length ∧
    (∀ k, k < outcomes.length → (∀ i, i < k → outcomes.getD i false = false) →
      outcomes.getD k false = true →
      Analytics.handleRedisReconnection outcomes =
        ⟨k + 1, (List.range k).map (fun i => 2 ^ i), true, false⟩) ∧
    ((∀ i, i < outcomes.length → outcomes.getD i false = false) →
      Analytics.handleRedisReconnection outcomes =
        ⟨outcomes.length, (List.range outcomes.length).map (fun i => 2 ^ i),
          false, true⟩) := by
  have hone : ∀ n : Nat, (List.range n).map (fun i => 1 * 2 ^ i) =
      (List.range n).map (fun i => 2 ^ i) := by
    intro n
    have : (fun i : Nat => 1 * 2 ^ i) = (fun i : Nat => 2 ^ i) := by
      funext i
      ring
    rw [this]
  refine ⟨reconnLoop_attempts_le outcomes 1, ?_, ?_⟩
  · intro k hk hbefore hsucc
    show reconnLoop outcomes 1 = _
    rw [reconnLoop_first_success outcomes 1 k hk hbefore hsucc, hone]
  · intro hall
    show reconnLoop outcomes 1 = _
    rw [reconnLoop_all_fail outcomes 1 hall, hone]

theorem analytics_C7_witness :
    (Analytics.handleRedisReconnection [false, true, true]).attempts ≤ 3 ∧
    Analytics.handleRedisReconnection [false, true, true] =
      ⟨1 + 1, (List.range 1).map (fun i => 2 ^ i), true, false⟩ ∧
    Analytics.handleRedisReconnection [false, false, false] =
      ⟨3, (List.range 3).map (fun i => 2 ^ i), false, true⟩ :=
  ⟨(analytics_C7_reconnection [false, true, true]).1,
   (analytics_C7_reconnection [false, true, true]).2.1 1 (by decide)
     (by decide) (by decide),
   (analytics_C7_reconnection [false, false, false]).2.2 (by decide)⟩

/-! ## Claim C8 -/

/-- Claim C8 (amended): a bootstrap failure is only logged — `_initialize`
still starts the periodic sync task — and after a failed bootstrap
`new_increments` is cleared while `absoluteTotals` holds exactly the hashes
fully read before the failure point: an empty baseline when the failure
precedes the first read, but a partially populated one when the load failed
mid-way (it is not always empty). -/
theorem analytics_C8_bootstrap (remote : CounterTables) (failAt : Option BootFail) :
    (Analytics.initOnce remote failAt).2.2 = true ∧
    (Analytics.initOnce remote failAt).1 = (Analytics.syncFromRedis remote failAt).1 ∧
    (∀ k, k < remote.access.length →
      (Analytics.syncFromRedis remote (some (.accessAt k))).2 = false ∧
      (Analytics.syncFromRedis remote (some (.accessAt k))).1.current_totals =
        ⟨loadTable (remote.access.take k), []⟩ ∧
      (Analytics.syncFromRedis remote (some (.accessAt k))).1.new_increments =
        emptyTables) ∧
    (∀ k, k < remote.tokens.length →
      (Analytics.syncFromRedis remote (some (.tokensAt k))).2 = false ∧
      (Analytics.syncFromRedis remote (some (.tokensAt k))).1.current_totals =
        ⟨loadTable remote.access, loadTable (remote.tokens.take k)⟩ ∧
      (Analytics.syncFromRedis remote (some (.tokensAt k))).1.new_increments =
        emptyTables) := by
  refine ⟨rfl, rfl, ?_, ?_⟩
  · intro k hk
    simp only [syncFromRedis_accessAt, if_pos hk]
    exact ⟨trivial, trivial, trivial⟩
  · intro k hk
    simp only [syncFromRedis_tokensAt, if_pos hk]
    exact ⟨trivial, trivial, trivial⟩

theorem analytics_C8_witness :
    (Analytics.initOnce remote0 (some (.tokensAt 0))).2.2 = true ∧
    0 < remote0.tokens.length ∧
    ((Analytics.syncFromRedis remote0 (some (.tokensAt 0))).2 = false ∧
      (Analytics.syncFromRedis remote0 (some (.tokensAt 0))).1.current_totals =
        ⟨loadTable remote0.access, loadTable (remote0.tokens.take 0)⟩ ∧
      (Analytics.syncFromRedis remote0 (some (.tokensAt 0))).1.new_increments =
        emptyTables) :=
  ⟨(analytics_C8_bootstrap remote0 (some (.tokensAt 0))).1, by decide,
   (analytics_C8_bootstrap remote0 (some (.tokensAt 0))).2.2.2 0 (by decide)⟩

/-- Claim C8 as frozen is false on its "empty baseline" part: when the load
of the tokens keys fails after the access keys were read, the failed
bootstrap leaves `absoluteTotals.access` populated with the already-loaded
data, not empty. -/
theorem analytics_C8_counterexample :
    (Analytics.syncFromRedis remote0 (some (.tokensAt 0))).2 = false ∧
    (Analytics.initOnce remote0 (some (.tokensAt 0))).2.2 = true ∧
    (Analytics.syncFromRedis remote0 (some (.tokensAt 0))).1.current_totals.access =
      [("total", [("docsifer", 5)])] ∧
    tgetc (Analytics.syncFromRedis remote0
      (some (.tokensAt 0))).1.current_totals.access "total" "docsifer" = 5 := by
  refine ⟨by decide, rfl, by decide, by decide⟩

/-! ## Claim C9 -/

/-- Claim C9: `stats()` returns, cell for cell, exactly `current_totals` —
the freshly rebuilt outer and inner dicts (the dict comprehension and
`dict(models)` copies) are equal to the originals — and the call leaves the
whole analytics state unchanged. -/
theorem analytics_C9_stats_snapshot (s : AnalyticsState)
    (hWF : TablesWF s.current_totals) :
    Analytics.stats s = (s.current_totals, s) := by
  show (⟨copyTable s.current_totals.access, copyTable s.current_totals.tokens⟩,
    s) = (s.current_totals, s)
  rw [copyTable_eq hWF.1, copyTable_eq hWF.2]

theorem analytics_C9_witness :
    TablesWF s3.current_totals ∧ Analytics.stats s3 = (s3.current_totals, s3) :=
  ⟨by decide, analytics_C9_stats_snapshot s3 (by decide)⟩

/-! ## Claim C10 -/

/-- One row of `build_stats_df` for a given model: the
`bucket.get(<literal>, {}).get(model, 0)` lookups used for the Total, Daily,
Weekly, Monthly and Yearly columns. -/
structure StatsRow where
  total : Int
  daily : Int
  weekly : Int
  monthly : Int
  yearly : Int
deriving DecidableEq, Repr

/-- The column values `build_stats_df` computes for one model. -/
def build_stats_df_row (bucket : Table) (model : String) : StatsRow :=
  ⟨tgetc bucket "total" model, tgetc bucket "daily" model, tgetc bucket "weekly" model,
   tgetc bucket "monthly" model, tgetc bucket "yearly" model⟩

theorem tkeys_copyTable (t : Table) : tkeys (copyTable t) = tkeys t := by
  unfold copyTable tkeys
  rw [List.map_map]
  rfl

/-- Claim C10: every bucket key in a reachable snapshot is "total" or a
date-stamped key produced by `_get_period_keys`; the literals "daily",
"weekly", "monthly", "yearly" are never such keys, so `build_stats_df`
finds 0 in its Daily/Weekly/Monthly/Yearly columns on every snapshot this
system produces (while its Total column reads the real all-time counter). -/
theorem analytics_C10_stats_ui (sys : Sys)
    (h : Reach (fun _ => True) (fun _ => True) (fun _ => True) sys) :
    (∀ mt : Metric, ∀ p ∈ tkeys ((Analytics.stats sys.st).1.tab mt), ValidPeriod p) ∧
    (¬ ValidPeriod "daily" ∧ ¬ ValidPeriod "weekly" ∧ ¬ ValidPeriod "monthly" ∧
      ¬ ValidPeriod "yearly") ∧
    (∀ (mt : Metric) (model : String),
      (build_stats_df_row ((Analytics.stats sys.st).1.tab mt) model).daily = 0 ∧
      (build_stats_df_row ((Analytics.stats sys.st).1.tab mt) model).weekly = 0 ∧
      (build_stats_df_row ((Analytics.stats sys.st).1.tab mt) model).monthly = 0 ∧
      (build_stats_df_row ((Analytics.stats sys.st).1.tab mt) model).yearly = 0 ∧
      (build_stats_df_row ((Analytics.stats sys.st).1.tab mt) model).total =
        tgetc (sys.st.current_totals.tab mt) "total" model) := by
  have hkeys := reach_keys h
  have hwf := (reach_wf h).1
  have hsnap : ∀ mt : Metric, (Analytics.stats sys.st).1.tab mt =
      copyTable (sys.st.current_totals.tab mt) := by
    intro mt
    cases mt <;> rfl
  have hvalid : ∀ mt : Metric, ∀ p ∈ tkeys ((Analytics.stats sys.st).1.tab mt),
      ValidPeriod p := by
    intro mt p hp
    rw [hsnap mt, tkeys_copyTable] at hp
    exact tablesKeysValid_tab hkeys.1 mt p hp
  have hnotkey : ∀ (mt : Metric) (lit : String), ¬ ValidPeriod lit →
      ∀ model, tgetc ((Analytics.stats sys.st).1.tab mt) lit model = 0 := by
    intro mt lit hnv model
    refine tgetc_eq_zero_of_not_mem (fun hmem => hnv (hvalid mt lit hmem)) model
  refine ⟨hvalid,
    ⟨not_validPeriod_daily, not_validPeriod_weekly, not_validPeriod_monthly,
      not_validPeriod_yearly⟩, ?_⟩
  intro mt model
  refine ⟨hnotkey mt "daily" not_validPeriod_daily model,
    hnotkey mt "weekly" not_validPeriod_weekly model,
    hnotkey mt "monthly" not_validPeriod_monthly model,
    hnotkey mt "yearly" not_validPeriod_yearly model, ?_⟩
  show tgetc ((Analytics.stats sys.st).1.tab mt) "total" model = _
  rw [hsnap mt, copyTable_eq (tablesWF_tab hwf mt)]

theorem analytics_C10_witness :
    (build_stats_df_row ((Analytics.stats sysR.st).1.tab Metric.access)
      "docsifer").daily = 0 ∧
    (build_stats_df_row ((Analytics.stats sysR.st).1.tab Metric.access)
      "docsifer").total =
      tgetc (sysR.st.current_totals.tab Metric.access) "total" "docsifer" ∧
    tgetc (sysR.st.current_totals.tab Metric.access) "total" "docsifer" = 1 :=
  ⟨((analytics_C10_stats_ui sysR
      (Reach.record Reach.start d0 trivial)).2.2 Metric.access "docsifer").1,
   ((analytics_C10_stats_ui sysR
      (Reach.record Reach.start d0 trivial)).2.2 Metric.access "docsifer").2.2.2.2,
   by decide⟩
